import Mathlib

/-! Process scheduler simulator (`scheduler.c`).

A shallow embedding of the simulation engine of `scheduler.c`: the job record
`pcb`, the doubly linked queue `dlq`, the two exchange sorts, and the four
policy loops `sched_FIFO`, `sched_SJF`, `sched_STCF`, `sched_RR`.

Modelling conventions.

* A `dlq` is the list of the `pcb`s it holds, read from `head` along the `pbck`
  links to `tail`; `add_to_tail` appends, `remove_from_head` takes the first
  element.  Node allocation and the link fields are memory layout and are not
  represented.
* `unsigned int` fields are natural numbers; the one operation on them that can
  leave the range, `--ptimeleft`, wraps modulo `2 ^ 32` as C prescribes.
* In the four policy loops the `int` counters (`*p_time`, `num_processes`,
  `response_time`, `turnaround_time`) are unbounded and the difference
  `*p_time - ptimearrival`, computed by C in `unsigned int` and then converted
  to `int`, is the signed difference of the two values: these loops describe
  the runs in which counters and arrival times stay below `2 ^ 31`.
* `FIFO_tick32` is the loop of `sched_FIFO` with every `int` held in a 32-bit
  two's complement word, as the compiled program runs it; it is used for the
  run that leaves that range.
* `print_matrics` receives its arguments as `float`; `float_of_int` gives the
  value of a converted argument.
* `while (1)` loops are iterated with explicit fuel; a loop body is a function
  from the state at the top of the iteration to an `Outcome`.
* `printf` output is collected as a list of `TraceLine`s.
-/

namespace Scheduler

/-! ## The program -/

/-- Number of values of a C `unsigned int`. -/
def UINT_MOD : Nat := 4294967296

/-- Process control block, `struct pcb`. -/
structure pcb where
  pid : Nat
  pname : String
  ptimeleft : Nat
  ptimearrival : Nat
  isfirstinstancetime : Int
  pfirstinstanceruntime : Nat
  deriving DecidableEq, Repr

/-- Doubly linked queue, `struct dlq`, as the sequence of its jobs from head to tail. -/
abbrev dlq := List pcb

/-- Appends a node at the tail, `add_to_tail`; a `NULL` node is ignored. -/
def add_to_tail (q : dlq) (new : Option pcb) : dlq :=
  match new with
  | none => q
  | some p => q ++ [p]

/-- Detaches the head node, `remove_from_head`: the node (or `NULL`, here `none`,
for an empty queue) and the queue that is left. -/
def remove_from_head (q : dlq) : Option pcb × dlq :=
  match q with
  | [] => (none, [])
  | p :: rest => (some p, rest)

/-- Emptiness test, `is_empty`. -/
def is_empty (q : dlq) : Bool :=
  match q with
  | [] => true
  | _ :: _ => false

/-- Value of a 32-bit word read as an `int` (two's complement). -/
def int_of_word (n : Nat) : Int :=
  if n < 2147483648 then (n : Int) else (n : Int) - 4294967296

/-- What `print_q` writes: name and remaining time of every job, head first; the
`unsigned int` field is printed with `%d`, that is read as an `int`. -/
def print_q (q : dlq) : List (String × Int) :=
  q.map (fun p => (p.pname, int_of_word p.ptimeleft))

/-- Inner loop of `sort_by_timetocompletion` from the node holding `node` onwards.
The argument list is the part of the queue still ahead in `pfwd` direction (towards
the head); the result lists the data left behind in the visited nodes, in
the same tail-to-head direction. -/
def ttc_pass_from (node : pcb) : List pcb → List pcb
  | [] => [node]
  | next :: rest =>
    if node.ptimeleft < next.ptimeleft then next :: ttc_pass_from node rest
    else node :: ttc_pass_from next rest

/-- One full tail-to-head pass of `sort_by_timetocompletion` over a queue given
tail first. -/
def ttc_pass : List pcb → List pcb
  | [] => []
  | node :: rest => ttc_pass_from node rest

/-- Exchange sort on remaining time, `sort_by_timetocompletion`: `end` walks from
head to tail, so a queue of `n` nodes gets `n - 1` full passes. -/
def sort_by_timetocompletion (q : dlq) : dlq :=
  (Nat.iterate ttc_pass (q.length - 1) q.reverse).reverse

/-- Inner loop of `sort_by_arrival_time`, as `ttc_pass_from` with the arrival key. -/
def arr_pass_from (node : pcb) : List pcb → List pcb
  | [] => [node]
  | next :: rest =>
    if node.ptimearrival < next.ptimearrival then next :: arr_pass_from node rest
    else node :: arr_pass_from next rest

/-- One full tail-to-head pass of `sort_by_arrival_time`. -/
def arr_pass : List pcb → List pcb
  | [] => []
  | node :: rest => arr_pass_from node rest

/-- Exchange sort on arrival time, `sort_by_arrival_time`. -/
def sort_by_arrival_time (q : dlq) : dlq :=
  (Nat.iterate arr_pass (q.length - 1) q.reverse).reverse

/-- Field initialisation done by `tokenize_pdata` once the four tokens
`pname:pid:duration:arrival` have been read. -/
def tokenize_pdata (pname : String) (pid duration arrival : Nat) : pcb :=
  { pid := pid, pname := pname, ptimeleft := duration, ptimearrival := arrival,
    isfirstinstancetime := 1, pfirstinstanceruntime := 0 }

/-- Maximum of two integers, `MAX`. -/
def MAX (a b : Int) : Int := if a > b then a else b

/-- Arguments a policy loop hands to `print_matrics`. -/
structure Metrics where
  num_processes : Int
  first_arrival : Int
  system_time : Int
  response_time : Int
  turnaround_time : Int
  deriving DecidableEq, Repr

/-- Throughput of `print_matrics`, read as the exact quotient of the integer
arguments; the C code converts the arguments to `float` and divides in `float`
(see `float_of_int` and `float_denominator` for the converted arguments). -/
def through_put (m : Metrics) : ℚ :=
  (m.num_processes : ℚ) / ((m.system_time : ℚ) - (m.first_arrival : ℚ))

/-- Average turnaround time of `print_matrics`, as an exact quotient. -/
def avg_turnaround_time (m : Metrics) : ℚ :=
  (m.turnaround_time : ℚ) / (m.num_processes : ℚ)

/-- Average response time of `print_matrics`, as an exact quotient. -/
def avg_response_time (m : Metrics) : ℚ :=
  (m.response_time : ℚ) / (m.num_processes : ℚ)

/-- Local variables of a policy loop: the admission feed `p_fq`, the ready
queue `q`, the running job `proc`, the tick counter `*p_time` and the metric
accumulators; `proc_time` is used by `sched_RR` only. -/
structure Sched where
  p_fq : dlq
  q : dlq
  proc : pcb
  p_time : Nat
  num_processes : Int
  response_time : Int
  turnaround_time : Int
  first_arrival : Int
  proc_time : Int
  deriving DecidableEq, Repr

/-- One printed trace line: the tick, the job that executed (as it is after
its decrement) or `none` for `idle`, and the ready queue as printed. -/
structure TraceLine where
  tick : Nat
  running : Option pcb
  ready : List pcb
  deriving DecidableEq, Repr

/-- Result of one iteration of a policy loop: `halt` when the `break` is taken
(the state has the counter already advanced), `cont` otherwise. -/
inductive Outcome where
  | halt (s : Sched)
  | cont (s : Sched) (line : TraceLine)
  deriving DecidableEq, Repr

/-- State before the first iteration, shared by the four policies: the head of
the feed becomes the running job.  On an empty feed `proc` is `NULL` and the
dereference that follows is a crash, rendered as `none`.  The `int`
`first_arrival` is the arrival time itself, as it is for arrival times below
`2 ^ 31` (`sched_init32` is the 32-bit form). -/
def sched_init (p_fq : dlq) (p_time : Nat) : Option Sched :=
  match remove_from_head p_fq with
  | (none, _) => none
  | (some proc, rest) =>
    some { p_fq := rest, q := [], proc := proc, p_time := p_time,
           num_processes := 1, response_time := 0, turnaround_time := 0,
           first_arrival := proc.ptimearrival, proc_time := 0 }

/-- The `break` test at the top of every policy loop, on the state with the
advanced counter. -/
def loop_break (s : Sched) : Bool :=
  is_empty s.p_fq && (is_empty s.q && s.proc.ptimeleft == 0)

/-- Largest value of a C `unsigned int`, `UINT_MAX`. -/
def UINT_MAX : Nat := 4294967295

/-- Decrement of an `unsigned int`: `n - 1` modulo `2 ^ 32`, that is `UINT_MAX`
for `n = 0` and `n - 1` otherwise (see `wrap_dec_eq_mod`). -/
def wrap_dec (n : Nat) : Nat := if n = 0 then UINT_MAX else n - 1

/-- The statement `--proc->data->ptimeleft` on an `unsigned int`. -/
def dec_timeleft (p : pcb) : pcb :=
  { p with ptimeleft := wrap_dec p.ptimeleft }

/-- Admission step of `sched_FIFO` (the `else` branch of the feed test). -/
def FIFO_admission (s : Sched) : Sched :=
  match s.p_fq with
  | [] => s
  | head :: _ =>
    if head.ptimearrival < s.p_time then
      let r := remove_from_head s.p_fq
      { s with p_fq := r.2, q := add_to_tail s.q r.1, num_processes := s.num_processes + 1 }
    else s

/-- Admission step of `sched_SJF`: as FIFO, followed by a re-sort of the ready queue. -/
def SJF_admission (s : Sched) : Sched :=
  match s.p_fq with
  | [] => s
  | head :: _ =>
    if head.ptimearrival < s.p_time then
      let r := remove_from_head s.p_fq
      { s with p_fq := r.2, q := sort_by_timetocompletion (add_to_tail s.q r.1),
               num_processes := s.num_processes + 1 }
    else s

/-- Admission step of `sched_STCF`; `num_processes` is not touched here. -/
def STCF_admission (s : Sched) : Sched :=
  match s.p_fq with
  | [] => s
  | head :: _ =>
    if head.ptimearrival < s.p_time then
      let r := remove_from_head s.p_fq
      { s with p_fq := r.2, q := add_to_tail s.q r.1 }
    else s

/-- Admission step of `sched_RR`. -/
def RR_admission (s : Sched) : Sched :=
  match s.p_fq with
  | [] => s
  | head :: _ =>
    if head.ptimearrival < s.p_time then
      let r := remove_from_head s.p_fq
      { s with p_fq := r.2, q := add_to_tail s.q r.1, num_processes := s.num_processes + 1 }
    else s

/-- First-run bookkeeping of `sched_FIFO`, `sched_SJF` and `sched_RR`
(`isfirstinstancetime == 1`).  The signed difference stands for the C value, an
`unsigned int` difference converted to `int`, and equals it while counter and
arrival time are below `2 ^ 31` (`first_run32` is the 32-bit form). -/
def first_run (s : Sched) : Sched :=
  if s.proc.isfirstinstancetime = 1 then
    { s with
      proc := { s.proc with isfirstinstancetime := 0, pfirstinstanceruntime := s.p_time },
      response_time := s.response_time + MAX 0 ((s.p_time : Int) - (s.proc.ptimearrival : Int)) }
  else s

/-- First-run bookkeeping of `sched_STCF`, which tests `isfirstinstancetime == 0`
and stores `1`. -/
def STCF_first_run (s : Sched) : Sched :=
  if s.proc.isfirstinstancetime = 0 then
    { s with
      proc := { s.proc with isfirstinstancetime := 1, pfirstinstanceruntime := s.p_time },
      response_time := s.response_time + MAX 0 ((s.p_time : Int) - (s.proc.ptimearrival : Int)) }
  else s

/-- Execution step of `sched_FIFO` and `sched_SJF`: the running job is
decremented when it has arrived, otherwise the tick is idle. -/
def execute (s : Sched) : Sched × Option pcb :=
  if s.proc.ptimearrival < s.p_time then
    let p := dec_timeleft s.proc
    ({ s with proc := p }, some p)
  else (s, none)

/-- Execution step of `sched_RR`, which also counts the tick in `proc_time`. -/
def RR_execute (s : Sched) : Sched × Option pcb :=
  if s.proc.ptimearrival < s.p_time then
    let p := dec_timeleft s.proc
    ({ s with proc := p, proc_time := s.proc_time + 1 }, some p)
  else (s, none)

/-- Completion handling of `sched_FIFO`, `sched_SJF` and `sched_STCF`; the signed
difference added to the total is the C value while counter and arrival time
are below `2 ^ 31` (`complete32` is the 32-bit form). -/
def complete (s : Sched) : Sched :=
  if s.proc.ptimeleft = 0 then
    let s1 := { s with
      turnaround_time := s.turnaround_time + ((s.p_time : Int) - (s.proc.ptimearrival : Int)) }
    if is_empty s1.q then s1
    else
      match remove_from_head s1.q with
      | (some p, rest) => { s1 with proc := p, q := rest }
      | (none, _) => s1
  else s

/-- Completion handling of `sched_RR`, which also resets `proc_time`. -/
def RR_complete (s : Sched) : Sched :=
  if s.proc.ptimeleft = 0 then
    let s1 := { s with
      turnaround_time := s.turnaround_time + ((s.p_time : Int) - (s.proc.ptimearrival : Int)) }
    let s2 :=
      if is_empty s1.q then s1
      else
        match remove_from_head s1.q with
        | (some p, rest) => { s1 with proc := p, q := rest }
        | (none, _) => s1
    { s2 with proc_time := 0 }
  else s

/-- Quantum of `sched_RR`, the local `time_slice`. -/
def time_slice : Int := 1

/-- Rotation of `sched_RR` when `proc_time == time_slice`. -/
def RR_rotate (s : Sched) : Sched :=
  if s.proc_time = time_slice then
    match remove_from_head (add_to_tail s.q (some s.proc)) with
    | (some p, rest) => { s with proc := p, q := rest, proc_time := 0 }
    | (none, _) => { s with proc_time := 0 }
  else s

/-- Preemption check of `sched_STCF`: a strictly shorter ready head swaps
places with the running job. -/
def STCF_preempt (s : Sched) : Sched :=
  match s.q with
  | [] => s
  | head :: _ =>
    if head.ptimeleft < s.proc.ptimeleft then
      match remove_from_head (add_to_tail s.q (some s.proc)) with
      | (some p, rest) => { s with proc := p, q := rest }
      | (none, _) => s
    else s

/-- The statement `++*p_time` for a counter below `INT_MAX`; the counter is kept
as an unbounded natural number (`advance32` is the statement on the 32-bit word). -/
def advance (s : Sched) : Sched := { s with p_time := s.p_time + 1 }

/-- Body of the loop of `sched_FIFO`. -/
def FIFO_tick (s0 : Sched) : Outcome :=
  let s1 := advance s0
  if loop_break s1 then Outcome.halt s1
  else
    let s2 := first_run (FIFO_admission s1)
    let r := execute s2
    Outcome.cont (complete r.1) { tick := r.1.p_time, running := r.2, ready := r.1.q }

/-- Body of the loop of `sched_SJF`. -/
def SJF_tick (s0 : Sched) : Outcome :=
  let s1 := advance s0
  if loop_break s1 then Outcome.halt s1
  else
    let s2 := first_run (SJF_admission s1)
    let r := execute s2
    Outcome.cont (complete r.1) { tick := r.1.p_time, running := r.2, ready := r.1.q }

/-- State of `sched_STCF` after the admission step and the first re-sort of a tick. -/
def STCF_sorted (s0 : Sched) : Sched :=
  let s2 := STCF_admission (advance s0)
  { s2 with q := sort_by_timetocompletion s2.q }

/-- State of `sched_STCF` immediately after the preemption check of a tick
(the check is skipped when the running job has not arrived). -/
def STCF_checked (s0 : Sched) : Sched :=
  let s3 := STCF_sorted s0
  if s3.proc.ptimearrival < s3.p_time then STCF_preempt s3 else s3

/-- Execution step of `sched_STCF`: the arrival test is made on the job that
was running before the preemption check, the decrement on the job after it. -/
def STCF_execute (s0 : Sched) : Sched × Option pcb :=
  let s3 := STCF_sorted s0
  if s3.proc.ptimearrival < s3.p_time then
    let s4 := STCF_first_run (STCF_preempt s3)
    let p := dec_timeleft s4.proc
    ({ s4 with proc := p }, some p)
  else (s3, none)

/-- Second re-sort of `sched_STCF`, done when the ready queue is printed. -/
def STCF_resort (s : Sched) : Sched :=
  if is_empty s.q then s else { s with q := sort_by_timetocompletion s.q }

/-- Body of the loop of `sched_STCF`. -/
def STCF_tick (s0 : Sched) : Outcome :=
  let s1 := advance s0
  if loop_break s1 then Outcome.halt s1
  else
    let r := STCF_execute s0
    let s5 := STCF_resort r.1
    Outcome.cont (complete s5) { tick := s5.p_time, running := r.2, ready := s5.q }

/-- Body of the loop of `sched_RR`. -/
def RR_tick (s0 : Sched) : Outcome :=
  let s1 := advance s0
  if loop_break s1 then Outcome.halt s1
  else
    let s2 := first_run (RR_admission s1)
    let r := RR_execute s2
    Outcome.cont (RR_rotate (RR_complete r.1))
      { tick := r.1.p_time, running := r.2, ready := r.1.q }

/-- The four scheduling policies `main` dispatches on. -/
inductive Policy where
  | FIFO
  | SJF
  | STCF
  | RR
  deriving DecidableEq, Repr

/-- Loop body of the given policy. -/
def tick (pol : Policy) : Sched → Outcome :=
  match pol with
  | Policy.FIFO => FIFO_tick
  | Policy.SJF => SJF_tick
  | Policy.STCF => STCF_tick
  | Policy.RR => RR_tick

/-- State at the top of the loop after `n` completed iterations; `none` if the
loop has been left before. -/
def state_after (pol : Policy) : Nat → Sched → Option Sched
  | 0, s => some s
  | n + 1, s =>
    match tick pol s with
    | Outcome.halt _ => none
    | Outcome.cont s1 _ => state_after pol n s1

/-- The `while (1)` loop with fuel: the state at the `break` and the trace
printed so far; `none` when the fuel runs out first. -/
def run_loop (pol : Policy) : Nat → Sched → List TraceLine → Option (Sched × List TraceLine)
  | 0, _, _ => none
  | fuel + 1, s, acc =>
    match tick pol s with
    | Outcome.halt s1 => some (s1, acc)
    | Outcome.cont s1 line => run_loop pol fuel s1 (acc ++ [line])

/-- Arguments of the final `print_matrics` call. -/
def metrics_of (s : Sched) : Metrics :=
  { num_processes := s.num_processes, first_arrival := s.first_arrival,
    system_time := s.p_time, response_time := s.response_time,
    turnaround_time := s.turnaround_time }

/-- A whole policy run on the feed `p_fq` from counter value `p_time`: the
metrics handed to `print_matrics` and the trace. -/
def sched (pol : Policy) (fuel : Nat) (p_fq : dlq) (p_time : Nat) :
    Option (Metrics × List TraceLine) :=
  match sched_init p_fq p_time with
  | none => none
  | some s0 =>
    match run_loop pol fuel s0 [] with
    | none => none
    | some (s, trace) => some (metrics_of s, trace)

/-- The policy run `sched_FIFO`. -/
def sched_FIFO (fuel : Nat) (p_fq : dlq) (p_time : Nat) := sched Policy.FIFO fuel p_fq p_time

/-- The policy run `sched_SJF`. -/
def sched_SJF (fuel : Nat) (p_fq : dlq) (p_time : Nat) := sched Policy.SJF fuel p_fq p_time

/-- The policy run `sched_STCF`. -/
def sched_STCF (fuel : Nat) (p_fq : dlq) (p_time : Nat) := sched Policy.STCF fuel p_fq p_time

/-- The policy run `sched_RR`. -/
def sched_RR (fuel : Nat) (p_fq : dlq) (p_time : Nat) := sched Policy.RR fuel p_fq p_time

/-! ## `sched_FIFO` with every `int` held in 32 bits -/

/-- The 32-bit word that holds an integer (two's complement). -/
def word_of_int (z : Int) : Nat := (z % 4294967296).toNat

/-- An integer result stored in an `int`: reduced modulo `2 ^ 32` into the signed range. -/
def wrap_int (z : Int) : Int := int_of_word (word_of_int z)

/-- Difference `a - b` of two 32-bit words in `unsigned int` arithmetic. -/
def word_sub (a b : Nat) : Nat := (a + 4294967296 - b) % 4294967296

/-- The statement `++*p_time` on the 32-bit word of the counter. -/
def advance32 (s : Sched) : Sched :=
  { s with p_time := if s.p_time = UINT_MAX then 0 else s.p_time + 1 }

/-- State before the first iteration with 32-bit `int`s: `first_arrival` is the
arrival word read as an `int`, `p_time` the word of the counter. -/
def sched_init32 (p_fq : dlq) (p_time : Nat) : Option Sched :=
  match remove_from_head p_fq with
  | (none, _) => none
  | (some proc, rest) =>
    some { p_fq := rest, q := [], proc := proc, p_time := p_time,
           num_processes := 1, response_time := 0, turnaround_time := 0,
           first_arrival := int_of_word proc.ptimearrival, proc_time := 0 }

/-- Admission step of `sched_FIFO` with 32-bit `int`s; the arrival test is the
`unsigned int` comparison of the arrival word with the counter word. -/
def FIFO_admission32 (s : Sched) : Sched :=
  match s.p_fq with
  | [] => s
  | head :: _ =>
    if head.ptimearrival < s.p_time then
      let r := remove_from_head s.p_fq
      { s with p_fq := r.2, q := add_to_tail s.q r.1,
               num_processes := wrap_int (s.num_processes + 1) }
    else s

/-- First-run bookkeeping of `sched_FIFO` with 32-bit `int`s: the difference is
taken in `unsigned int`, converted to `int` for `MAX`, and the sum stored in an `int`. -/
def first_run32 (s : Sched) : Sched :=
  if s.proc.isfirstinstancetime = 1 then
    { s with
      proc := { s.proc with isfirstinstancetime := 0, pfirstinstanceruntime := s.p_time },
      response_time := wrap_int (s.response_time
        + MAX 0 (int_of_word (word_sub s.p_time s.proc.ptimearrival))) }
  else s

/-- Completion handling of `sched_FIFO` with 32-bit `int`s: the sum of the `int`
total and the `unsigned int` difference is stored back in the `int`. -/
def complete32 (s : Sched) : Sched :=
  if s.proc.ptimeleft = 0 then
    let s1 := { s with
      turnaround_time := wrap_int (s.turnaround_time
        + ((word_sub s.p_time s.proc.ptimearrival : Nat) : Int)) }
    if is_empty s1.q then s1
    else
      match remove_from_head s1.q with
      | (some p, rest) => { s1 with proc := p, q := rest }
      | (none, _) => s1
  else s

/-- Body of the loop of `sched_FIFO` as the compiled program runs it, every
`int` held in 32 bits; `p_time` and the `tick` of a trace line are the word of
the counter.  The execution step is that of `execute`, whose arrival test is
the comparison of two words. -/
def FIFO_tick32 (s0 : Sched) : Outcome :=
  let s1 := advance32 s0
  if loop_break s1 then Outcome.halt s1
  else
    let s2 := first_run32 (FIFO_admission32 s1)
    let r := execute s2
    Outcome.cont (complete32 r.1) { tick := r.1.p_time, running := r.2, ready := r.1.q }

/-- State at the top of the 32-bit loop after `n` completed iterations. -/
def state_after32 : Nat → Sched → Option Sched
  | 0, s => some s
  | n + 1, s =>
    match FIFO_tick32 s with
    | Outcome.halt _ => none
    | Outcome.cont s1 _ => state_after32 n s1

/-- The `while (1)` loop of the 32-bit `sched_FIFO` with fuel. -/
def run_loop32 : Nat → Sched → List TraceLine → Option (Sched × List TraceLine)
  | 0, _, _ => none
  | fuel + 1, s, acc =>
    match FIFO_tick32 s with
    | Outcome.halt s1 => some (s1, acc)
    | Outcome.cont s1 line => run_loop32 fuel s1 (acc ++ [line])

/-- Arguments of the final `print_matrics` call of the 32-bit loop; the counter
word is read as an `int`. -/
def metrics_of32 (s : Sched) : Metrics :=
  { num_processes := s.num_processes, first_arrival := s.first_arrival,
    system_time := int_of_word s.p_time, response_time := s.response_time,
    turnaround_time := s.turnaround_time }

/-- A whole run of `sched_FIFO` with 32-bit `int`s. -/
def sched_FIFO32 (fuel : Nat) (p_fq : dlq) (p_time : Nat) : Option (Metrics × List TraceLine) :=
  match sched_init32 p_fq p_time with
  | none => none
  | some s0 =>
    match run_loop32 fuel s0 [] with
    | none => none
    | some (s, trace) => some (metrics_of32 s, trace)

/-! ## `remove_from_head` on the linked representation -/

/-- A queue node, `struct dlq_node`; links are node addresses, `none` for `NULL`. -/
structure dlq_node where
  pfwd : Option Nat
  pbck : Option Nat
  data : pcb

/-- The queue header, `struct dlq`, with its two node pointers. -/
structure dlq_header where
  head : Option Nat
  tail : Option Nat
  deriving DecidableEq, Repr

/-- How a call ends: `exit1` for `exit(1)` after the message, `fault` for a
dereference of `NULL`, `ret` for a normal return. -/
inductive Call (α : Type) where
  | exit1 (msg : String)
  | fault
  | ret (a : α)

/-- The function `remove_from_head` on the linked representation: node memory
`mem` and header `q` go in; the returned pointer, the header and the memory
come out. -/
def remove_from_head_nodes (mem : Nat → dlq_node) (q : dlq_header) :
    Call (Option Nat × dlq_header × (Nat → dlq_node)) :=
  match q.head with
  | none =>
    match q.tail with
    | some _ => Call.exit1 "DLList inconsitent."
    | none => Call.ret (none, q, mem)
  | some h =>
    if q.head = q.tail then
      if (mem h).pbck ≠ none ∨ (mem h).pfwd ≠ none then Call.exit1 "DLList inconsitent."
      else
        Call.ret (some h, { head := none, tail := none },
          Function.update mem h { mem h with pfwd := none, pbck := none })
    else
      match (mem h).pbck with
      | none => Call.fault
      | some h2 =>
        let mem1 := Function.update mem h2 { mem h2 with pfwd := none }
        Call.ret (some h, { q with head := some h2 },
          Function.update mem1 h { mem1 h with pfwd := none, pbck := none })

/-! ## The `float` arguments of `print_matrics` -/

/-- Spacing of the `float` values next to a natural number: 1 below `2 ^ 24`,
doubled for every further bit (the fuel bounds the number of doublings). -/
def float_ulp : Nat → Nat → Nat
  | 0, _ => 1
  | fuel + 1, n => if n < 16777216 then 1 else 2 * float_ulp fuel (n / 2)

/-- Conversion of a natural number below `2 ^ 64` to `float` (IEEE single
precision, 24 significant bits, round to nearest, ties to even), given by the
natural number the resulting `float` is equal to. -/
def float_of_nat (n : Nat) : Nat :=
  let u := float_ulp 40 n
  let q := n / u
  let r := n % u
  if 2 * r < u then q * u
  else if u < 2 * r then (q + 1) * u
  else if q % 2 = 0 then q * u
  else (q + 1) * u

/-- Conversion of an `int` argument to a `float` parameter, as in the call of
`print_matrics`, given by the integer the resulting `float` is equal to. -/
def float_of_int (z : Int) : Int :=
  if z < 0 then -((float_of_nat z.natAbs : Nat) : Int) else ((float_of_nat z.natAbs : Nat) : Int)

/-- Denominator `system_time - first_arrival` of the throughput in
`print_matrics`: both arguments arrive converted to `float`, and their
difference, an integer, is rounded to `float` again. -/
def float_denominator (m : Metrics) : Int :=
  float_of_int (float_of_int m.system_time - float_of_int m.first_arrival)

/-! ## Example inputs, observations and invariants used in the statements -/

/-- Job `A:1:4:0` of the end-to-end example. -/
def jobA : pcb := tokenize_pdata "A" 1 4 0

/-- Job `B:2:2:1` of the end-to-end example. -/
def jobB : pcb := tokenize_pdata "B" 2 2 1

/-- State at the top of the loop after `n` iterations of a run from the feed
`p_fq` and counter value `p_time`. -/
def run_state (pol : Policy) (p_fq : dlq) (p_time n : Nat) : Option Sched :=
  (sched_init p_fq p_time).bind (state_after pol n)

/-- Printed form of a trace line: tick, name of the executing job, ready queue. -/
def render (l : TraceLine) : Nat × Option String × List (String × Int) :=
  (l.tick, l.running.map pcb.pname, print_q l.ready)

/-- Printed form of a trace line together with the remaining time of the
executing job after its decrement. -/
def render_left (l : TraceLine) : Nat × Option (String × Nat) × List (String × Int) :=
  (l.tick, l.running.map (fun p => (p.pname, p.ptimeleft)), print_q l.ready)

/-- Every job of the ready queue has an arrival time before the counter value. -/
def Arrived (s : Sched) : Prop := ∀ j ∈ s.q, j.ptimearrival < s.p_time

/-- Admission step of the given policy. -/
def admission (pol : Policy) : Sched → Sched :=
  match pol with
  | Policy.FIFO => FIFO_admission
  | Policy.SJF => SJF_admission
  | Policy.STCF => STCF_admission
  | Policy.RR => RR_admission

/-- Three jobs that all arrive at time 0. -/
def threeAtZero : dlq :=
  [tokenize_pdata "J1" 1 2 0, tokenize_pdata "J2" 2 2 0, tokenize_pdata "J3" 3 2 0]

/-- State of the run on `threeAtZero` before its first tick. -/
def threeAtZero_init : Sched :=
  { p_fq := [tokenize_pdata "J2" 2 2 0, tokenize_pdata "J3" 3 2 0], q := [],
    proc := tokenize_pdata "J1" 1 2 0, p_time := 0, num_processes := 1, response_time := 0,
    turnaround_time := 0, first_arrival := 0, proc_time := 0 }

/-- Job `A:1:1:0`. -/
def shortA : pcb := tokenize_pdata "A" 1 1 0

/-- Job `B:2:1:1`. -/
def shortB : pcb := tokenize_pdata "B" 2 1 1

/-- Trace line printed by the iteration that starts in state `s`, if the loop goes on. -/
def tick_line (pol : Policy) (s : Sched) : Option TraceLine :=
  match tick pol s with
  | Outcome.halt _ => none
  | Outcome.cont _ line => some line

/-- Trace line printed at tick `n + 1` of a run from the feed `p_fq`. -/
def run_line (pol : Policy) (p_fq : dlq) (p_time n : Nat) : Option TraceLine :=
  (run_state pol p_fq p_time n).bind (tick_line pol)

/-- Metrics handed to `print_matrics` by the FIFO run on A(4,0), B(2,1). -/
def fifo_example_metrics : Metrics :=
  { num_processes := 2, first_arrival := 0, system_time := 7, response_time := 5,
    turnaround_time := 9 }

/-- Inner loop of an exchange sort with the given key (the common shape of
`ttc_pass_from` and `arr_pass_from`). -/
def key_pass_from (key : pcb → Nat) (node : pcb) : List pcb → List pcb
  | [] => [node]
  | next :: rest =>
    if key node < key next then next :: key_pass_from key node rest
    else node :: key_pass_from key next rest

/-- One full pass of an exchange sort with the given key. -/
def key_pass (key : pcb → Nat) : List pcb → List pcb
  | [] => []
  | node :: rest => key_pass_from key node rest

/-- Exchange sort with the given key. -/
def exchange_sort (key : pcb → Nat) (q : dlq) : dlq :=
  (Nat.iterate (key_pass key) (q.length - 1) q.reverse).reverse

/-- State of an exchange sort after `k` passes (queue read tail first): the last
`k` nodes are in order and hold jobs not above those in the other nodes. -/
def PassInv (key : pcb → Nat) (k : Nat) (r : List pcb) : Prop :=
  ∃ front back, r = front ++ back ∧ back.length = k ∧
    back.Pairwise (fun a b => key b ≤ key a) ∧ ∀ x ∈ front, ∀ y ∈ back, key y ≤ key x

/-- While the running job has not arrived, nothing has been admitted and the
jobs of the feed arrive no earlier than it. -/
def IdleInv (s : Sched) : Prop :=
  s.p_time ≤ s.proc.ptimearrival →
    s.q = [] ∧ ∀ j ∈ s.p_fq, s.proc.ptimearrival ≤ j.ptimearrival

/-- Jobs of a queue whose key has the value `k`, in queue order. -/
def with_key (key : pcb → Nat) (k : Nat) (l : List pcb) : List pcb :=
  l.filter (fun x => decide (key x = k))

/-- Insertion step of the stable insertion sort: `x` goes in front of the first
job whose key is not below its own. -/
def insert_by (key : pcb → Nat) (x : pcb) : List pcb → List pcb
  | [] => [x]
  | y :: ys => if key x ≤ key y then x :: y :: ys else y :: insert_by key x ys

/-- Stable insertion sort by a key: each job is inserted into the sorted rest
of the sequence, in front of the jobs of equal key that came after it. -/
def stable_insertion_sort (key : pcb → Nat) : List pcb → List pcb
  | [] => []
  | x :: xs => insert_by key x (stable_insertion_sort key xs)

/-- Job `L:1:1:2`: one unit of work, arrival at time 2. -/
def lateJob : pcb := tokenize_pdata "L" 1 1 2

/-- Jobs moved from the feed to the ready queue at the tick that starts in state `s`. -/
def admitted (s : Sched) : List pcb :=
  match s.p_fq with
  | [] => []
  | head :: _ => if head.ptimearrival < s.p_time + 1 then [head] else []

/-- State of `sched_FIFO` after the execution step of a tick, before completion handling. -/
def FIFO_ran (s : Sched) : Sched := (execute (first_run (FIFO_admission (advance s)))).1

/-- State of `sched_SJF` after the execution step of a tick, before completion handling. -/
def SJF_ran (s : Sched) : Sched := (execute (first_run (SJF_admission (advance s)))).1

/-- State of the FIFO run on A(4,0), B(2,1) after tick 3. -/
def fifo_state3 : Sched :=
  { p_fq := [], q := [jobB],
    proc := { pid := 1, pname := "A", ptimeleft := 1, ptimearrival := 0,
              isfirstinstancetime := 0, pfirstinstanceruntime := 1 },
    p_time := 3, num_processes := 2, response_time := 1, turnaround_time := 0,
    first_arrival := 0, proc_time := 0 }

/-- State of the FIFO run on A(4,0), B(2,1) after tick 4. -/
def fifo_state4 : Sched :=
  { p_fq := [], q := [], proc := jobB, p_time := 4, num_processes := 2, response_time := 1,
    turnaround_time := 4, first_arrival := 0, proc_time := 0 }

/-- Line printed at tick 4 of the FIFO run on A(4,0), B(2,1). -/
def fifo_line4 : TraceLine :=
  { tick := 4,
    running := some { pid := 1, pname := "A", ptimeleft := 0, ptimearrival := 0,
                      isfirstinstancetime := 0, pfirstinstanceruntime := 1 },
    ready := [jobB] }

/-- The ready queue is in ascending order of remaining time. -/
def SortedQ (s : Sched) : Prop := s.q.Pairwise (fun a b => a.ptimeleft ≤ b.ptimeleft)

/-- Jobs `P:1:2:0`, `Q:2:3:0`, `R:3:1:0` for the SJF example. -/
def sjf_jobs : dlq := [tokenize_pdata "P" 1 2 0, tokenize_pdata "Q" 2 3 0, tokenize_pdata "R" 3 1 0]

/-- State of the SJF run on `sjf_jobs` after tick 1. -/
def sjf_state1 : Sched :=
  { p_fq := [tokenize_pdata "R" 3 1 0], q := [tokenize_pdata "Q" 2 3 0],
    proc := { pid := 1, pname := "P", ptimeleft := 1, ptimearrival := 0,
              isfirstinstancetime := 0, pfirstinstanceruntime := 1 },
    p_time := 1, num_processes := 2, response_time := 1, turnaround_time := 0,
    first_arrival := 0, proc_time := 0 }

/-- State of the SJF run on `sjf_jobs` after tick 2: P has completed and R,
sorted in front of Q, has been promoted. -/
def sjf_state2 : Sched :=
  { p_fq := [], q := [tokenize_pdata "Q" 2 3 0], proc := tokenize_pdata "R" 3 1 0,
    p_time := 2, num_processes := 3, response_time := 1, turnaround_time := 2,
    first_arrival := 0, proc_time := 0 }

/-- Line printed at tick 2 of the SJF run on `sjf_jobs`. -/
def sjf_line2 : TraceLine :=
  { tick := 2,
    running := some { pid := 1, pname := "P", ptimeleft := 0, ptimearrival := 0,
                      isfirstinstancetime := 0, pfirstinstanceruntime := 1 },
    ready := [tokenize_pdata "R" 3 1 0, tokenize_pdata "Q" 2 3 0] }

/-- Either the counter has passed the first arrival, or the first job is still
in the running slot, untouched. -/
def StartInv (s : Sched) : Prop :=
  s.first_arrival < (s.p_time : Int) ∨
    ((s.proc.ptimearrival : Int) = s.first_arrival ∧ 1 ≤ s.proc.ptimeleft ∧ s.proc_time = 0)

/-- Job `Z:1:0:1`: no work, arrival at time 1. -/
def zeroJob : pcb := tokenize_pdata "Z" 1 0 1

/-- State of `sched_RR` after the execution step of a tick, before completion handling. -/
def RR_ran (s : Sched) : Sched := (RR_execute (first_run (RR_admission (advance s)))).1

/-- Loop invariant of `sched_RR`: ready jobs have arrived and the tick count of
the running job is 0 at the top of the loop. -/
def RRInv (s : Sched) : Prop := Arrived s ∧ s.proc_time = 0

/-- State of the RR run on A(4,0), B(2,1) after tick 1. -/
def rr_state1 : Sched :=
  { p_fq := [jobB], q := [],
    proc := { pid := 1, pname := "A", ptimeleft := 3, ptimearrival := 0,
              isfirstinstancetime := 0, pfirstinstanceruntime := 1 },
    p_time := 1, num_processes := 1, response_time := 1, turnaround_time := 0,
    first_arrival := 0, proc_time := 0 }

/-- State of the RR run on A(4,0), B(2,1) after tick 2: A has been rotated behind B. -/
def rr_state2 : Sched :=
  { p_fq := [],
    q := [{ pid := 1, pname := "A", ptimeleft := 2, ptimearrival := 0,
            isfirstinstancetime := 0, pfirstinstanceruntime := 1 }],
    proc := jobB, p_time := 2, num_processes := 2, response_time := 1, turnaround_time := 0,
    first_arrival := 0, proc_time := 0 }

/-- Line printed at tick 2 of the RR run on A(4,0), B(2,1). -/
def rr_line2 : TraceLine :=
  { tick := 2,
    running := some { pid := 1, pname := "A", ptimeleft := 2, ptimearrival := 0,
                      isfirstinstancetime := 0, pfirstinstanceruntime := 1 },
    ready := [jobB] }

/-- Pids of the jobs held by the feed, the ready queue and the running slot. -/
def ids (s : Sched) : List Nat := (s.p_fq ++ s.q ++ [s.proc]).map pcb.pid

/-- The pids of `ids` as a multiset. -/
def bag (s : Sched) : Multiset Nat := (ids s : Multiset Nat)

/-- State of a tick of the given policy just before completion handling. -/
def at_completion (pol : Policy) (s : Sched) : Sched :=
  match pol with
  | Policy.FIFO => FIFO_ran s
  | Policy.SJF => SJF_ran s
  | Policy.STCF => STCF_resort (STCF_execute s).1
  | Policy.RR => RR_ran s

/-- State of the 32-bit FIFO run on the feed `p_fq` after `n` iterations. -/
def run_state32 (p_fq : dlq) (p_time n : Nat) : Option Sched :=
  (sched_init32 p_fq p_time).bind (state_after32 n)

/-- State of the 32-bit FIFO run on A(1,0), B(1,1) after iteration 2: A, already
counted as complete at tick 1, runs on with a wrapped remaining time while B waits. -/
def wrapped32 : Sched :=
  { p_fq := [], q := [shortB],
    proc := { pid := 1, pname := "A", ptimeleft := 4294967295, ptimearrival := 0,
              isfirstinstancetime := 0, pfirstinstanceruntime := 1 },
    p_time := 2, num_processes := 2, response_time := 1, turnaround_time := 1,
    first_arrival := 0, proc_time := 0 }

/-- State of the same run after iteration `2 ^ 32 - 1`, the counter word at its maximum. -/
def counted_down32 : Sched :=
  { wrapped32 with
    p_time := wrapped32.p_time + 4294967293,
    proc := { wrapped32.proc with ptimeleft := wrapped32.proc.ptimeleft - 4294967293 } }

/-- State of the same run after iteration `2 ^ 32 + 2` (counter word 2): A has
reached 0 again, has been counted a second time, and B has become the running job. -/
def recounted32 : Sched :=
  { p_fq := [], q := [], proc := shortB, p_time := 2, num_processes := 2,
    response_time := 1, turnaround_time := 3, first_arrival := 0, proc_time := 0 }

/-- State of the same run after iteration `2 ^ 32 + 3` (counter word 3): B has run. -/
def finished32 : Sched :=
  { p_fq := [], q := [],
    proc := { pid := 2, pname := "B", ptimeleft := 0, ptimearrival := 1,
              isfirstinstancetime := 0, pfirstinstanceruntime := 3 },
    p_time := 3, num_processes := 2, response_time := 3, turnaround_time := 5,
    first_arrival := 0, proc_time := 0 }

/-- Job `X:1:1:67108864`: one unit of work, arrival at time `2 ^ 26`. -/
def bigJob : pcb := tokenize_pdata "X" 1 1 67108864

/-- State of the FIFO run on `bigJob` after tick 1: the job waits for its arrival. -/
def big_state1 : Sched :=
  { p_fq := [], q := [],
    proc := { pid := 1, pname := "X", ptimeleft := 1, ptimearrival := 67108864,
              isfirstinstancetime := 0, pfirstinstanceruntime := 1 },
    p_time := 1, num_processes := 1, response_time := 0, turnaround_time := 0,
    first_arrival := 67108864, proc_time := 0 }

/-- State of the FIFO run on `bigJob` at the end of its idle ticks. -/
def big_state_arrived : Sched := { big_state1 with p_time := big_state1.p_time + 67108863 }

/-- State of the FIFO run on `bigJob` after the tick at which the job runs. -/
def big_state_done : Sched :=
  { p_fq := [], q := [],
    proc := { pid := 1, pname := "X", ptimeleft := 0, ptimearrival := 67108864,
              isfirstinstancetime := 0, pfirstinstanceruntime := 1 },
    p_time := 67108865, num_processes := 1, response_time := 0, turnaround_time := 1,
    first_arrival := 67108864, proc_time := 0 }

/-- Metrics handed to `print_matrics` by the FIFO run on `bigJob`. -/
def big_metrics : Metrics :=
  { num_processes := 1, first_arrival := 67108864, system_time := 67108866,
    response_time := 0, turnaround_time := 1 }

/-- Trace printed by the FIFO run on A(4,0), B(2,1). -/
def fifo_example_trace : List TraceLine :=
  [{ tick := 1, running := some { jobA with ptimeleft := 3, isfirstinstancetime := 0,
                                            pfirstinstanceruntime := 1 }, ready := [] },
   { tick := 2, running := some { jobA with ptimeleft := 2, isfirstinstancetime := 0,
                                            pfirstinstanceruntime := 1 }, ready := [jobB] },
   { tick := 3, running := some { jobA with ptimeleft := 1, isfirstinstancetime := 0,
                                            pfirstinstanceruntime := 1 }, ready := [jobB] },
   { tick := 4, running := some { jobA with ptimeleft := 0, isfirstinstancetime := 0,
                                            pfirstinstanceruntime := 1 }, ready := [jobB] },
   { tick := 5, running := some { jobB with ptimeleft := 1, isfirstinstancetime := 0,
                                            pfirstinstanceruntime := 5 }, ready := [] },
   { tick := 6, running := some { jobB with ptimeleft := 0, isfirstinstancetime := 0,
                                            pfirstinstanceruntime := 5 }, ready := [] }]

/-! ## Theorems -/

/-- C1: FIFO on A(4,0), B(2,1) from counter 0 prints A at ticks 1-4 with the
ready queue empty at tick 1 and [B(2)] at ticks 2-4, then B at ticks 5-6; the
turnaround total grows by 4 at tick 4 (A) and by 5 at tick 6 (B), ending at 9. -/
theorem C1_fifo_example :
    (sched_FIFO 7 [jobA, jobB] 0).map (fun r => (r.2.map render, r.1.turnaround_time))
      = some ([(1, some "A", []), (2, some "A", [("B", 2)]), (3, some "A", [("B", 2)]),
               (4, some "A", [("B", 2)]), (5, some "B", []), (6, some "B", [])], 9)
    ∧ (sched_FIFO 7 [jobA, jobB] 0).map (fun r => r.2.map (fun l => l.running.map pcb.pid))
      = some [some 1, some 1, some 1, some 1, some 2, some 2]
    ∧ (List.range 7).map (fun n =>
        (run_state Policy.FIFO [jobA, jobB] 0 n).map (fun s => s.turnaround_time))
      = [some 0, some 0, some 0, some 0, some (0 + 4), some 4, some (4 + 5)] :=
  ⟨rfl, rfl, rfl⟩

/-- C2: STCF on A(4,0), B(2,1) from counter 0.  At tick 1 the ready queue is
empty and A runs; at tick 2 B is in the sorted ready queue for the first time and
the preemption check makes B the running job with A back in the ready queue; B
executes at ticks 2 and 3, reaching remaining time 0 at tick 3, and A executes
again only from tick 4 on. -/
theorem C2_stcf_example :
    (run_state Policy.STCF [jobA, jobB] 0 0).map
        (fun s => (print_q (STCF_sorted s).q, (STCF_checked s).proc.pname)) = some ([], "A")
    ∧ (run_state Policy.STCF [jobA, jobB] 0 1).map
        (fun s => ((STCF_sorted s).proc.pname, print_q (STCF_sorted s).q,
                   (STCF_checked s).proc.pname, print_q (STCF_checked s).q))
      = some ("A", [("B", 2)], "B", [("A", 3)])
    ∧ (sched_STCF 7 [jobA, jobB] 0).map (fun r => r.2.map render_left)
      = some [(1, some ("A", 3), []), (2, some ("B", 1), [("A", 3)]),
              (3, some ("B", 0), [("A", 3)]), (4, some ("A", 2), []),
              (5, some ("A", 1), []), (6, some ("A", 0), [])] :=
  ⟨rfl, rfl, rfl⟩

/-! ### The exchange sort keeps the jobs of the queue -/

theorem ttc_pass_from_perm (node : pcb) (l : List pcb) :
    (ttc_pass_from node l).Perm (node :: l) := by
  induction l generalizing node with
  | nil => simp [ttc_pass_from]
  | cons next rest ih =>
    unfold ttc_pass_from
    split
    · exact ((ih node).cons next).trans (List.Perm.swap node next rest)
    · exact (ih next).cons node

theorem ttc_pass_perm (l : List pcb) : (ttc_pass l).Perm l := by
  cases l with
  | nil => simp [ttc_pass]
  | cons node rest => exact ttc_pass_from_perm node rest

theorem ttc_iterate_perm (n : Nat) (l : List pcb) : (Nat.iterate ttc_pass n l).Perm l := by
  induction n generalizing l with
  | zero => simp
  | succ k ih =>
    rw [Function.iterate_succ_apply]
    exact (ih (ttc_pass l)).trans (ttc_pass_perm l)

theorem sort_by_timetocompletion_perm (q : dlq) : (sort_by_timetocompletion q).Perm q := by
  unfold sort_by_timetocompletion
  exact ((List.reverse_perm _).trans (ttc_iterate_perm _ _)).trans (List.reverse_perm q)

theorem mem_sort_by_timetocompletion (j : pcb) (q : dlq) :
    j ∈ sort_by_timetocompletion q ↔ j ∈ q :=
  (sort_by_timetocompletion_perm q).mem_iff

/-! ### Frame facts for the phases of a tick -/

@[simp]
theorem advance_p_time (s : Sched) : (advance s).p_time = s.p_time + 1 := rfl
@[simp]
theorem advance_q (s : Sched) : (advance s).q = s.q := rfl
@[simp]
theorem advance_proc (s : Sched) : (advance s).proc = s.proc := rfl
@[simp]
theorem advance_p_fq (s : Sched) : (advance s).p_fq = s.p_fq := rfl

@[simp]
theorem dec_timeleft_arrival (p : pcb) :
    (dec_timeleft p).ptimearrival = p.ptimearrival := rfl

/-- On the range of `unsigned int`, `wrap_dec` is subtraction of one modulo `2 ^ 32`. -/
theorem wrap_dec_eq_mod (n : Nat) (h : n < UINT_MOD) :
    wrap_dec n = (n + UINT_MOD - 1) % UINT_MOD := by
  unfold wrap_dec UINT_MAX
  unfold UINT_MOD at h ⊢
  split <;> omega

@[simp]
theorem FIFO_admission_p_time (s : Sched) : (FIFO_admission s).p_time = s.p_time := by
  unfold FIFO_admission; split
  · rfl
  · split <;> rfl

@[simp]
theorem FIFO_admission_proc (s : Sched) : (FIFO_admission s).proc = s.proc := by
  unfold FIFO_admission; split
  · rfl
  · split <;> rfl

@[simp]
theorem SJF_admission_p_time (s : Sched) : (SJF_admission s).p_time = s.p_time := by
  unfold SJF_admission; split
  · rfl
  · split <;> rfl

@[simp]
theorem SJF_admission_proc (s : Sched) : (SJF_admission s).proc = s.proc := by
  unfold SJF_admission; split
  · rfl
  · split <;> rfl

@[simp]
theorem RR_admission_p_time (s : Sched) : (RR_admission s).p_time = s.p_time := by
  unfold RR_admission; split
  · rfl
  · split <;> rfl

@[simp]
theorem RR_admission_proc (s : Sched) : (RR_admission s).proc = s.proc := by
  unfold RR_admission; split
  · rfl
  · split <;> rfl

@[simp]
theorem STCF_admission_p_time (s : Sched) : (STCF_admission s).p_time = s.p_time := by
  unfold STCF_admission; split
  · rfl
  · split <;> rfl

@[simp]
theorem STCF_admission_proc (s : Sched) : (STCF_admission s).proc = s.proc := by
  unfold STCF_admission; split
  · rfl
  · split <;> rfl

@[simp]
theorem first_run_p_time (s : Sched) : (first_run s).p_time = s.p_time := by
  unfold first_run; split <;> rfl

@[simp]
theorem first_run_q (s : Sched) : (first_run s).q = s.q := by
  unfold first_run; split <;> rfl

@[simp]
theorem first_run_arrival (s : Sched) :
    (first_run s).proc.ptimearrival = s.proc.ptimearrival := by
  unfold first_run; split <;> rfl

@[simp]
theorem STCF_first_run_p_time (s : Sched) : (STCF_first_run s).p_time = s.p_time := by
  unfold STCF_first_run; split <;> rfl

@[simp]
theorem STCF_first_run_q (s : Sched) : (STCF_first_run s).q = s.q := by
  unfold STCF_first_run; split <;> rfl

@[simp]
theorem STCF_first_run_p_fq (s : Sched) : (STCF_first_run s).p_fq = s.p_fq := by
  unfold STCF_first_run; split <;> rfl

@[simp]
theorem STCF_first_run_arrival (s : Sched) :
    (STCF_first_run s).proc.ptimearrival = s.proc.ptimearrival := by
  unfold STCF_first_run; split <;> rfl

@[simp]
theorem STCF_first_run_timeleft (s : Sched) :
    (STCF_first_run s).proc.ptimeleft = s.proc.ptimeleft := by
  unfold STCF_first_run; split <;> rfl

@[simp]
theorem STCF_sorted_p_time (s : Sched) : (STCF_sorted s).p_time = s.p_time + 1 := by
  simp [STCF_sorted]

@[simp]
theorem STCF_sorted_proc (s : Sched) : (STCF_sorted s).proc = s.proc := by
  simp [STCF_sorted]

@[simp]
theorem STCF_preempt_p_time (s : Sched) : (STCF_preempt s).p_time = s.p_time := by
  unfold STCF_preempt; split
  · rfl
  · split
    · split <;> rfl
    · rfl

@[simp]
theorem STCF_preempt_p_fq (s : Sched) : (STCF_preempt s).p_fq = s.p_fq := by
  unfold STCF_preempt; split
  · rfl
  · split
    · split <;> rfl
    · rfl

@[simp]
theorem STCF_resort_p_time (s : Sched) : (STCF_resort s).p_time = s.p_time := by
  unfold STCF_resort; split <;> rfl

@[simp]
theorem STCF_resort_proc (s : Sched) : (STCF_resort s).proc = s.proc := by
  unfold STCF_resort; split <;> rfl

@[simp]
theorem STCF_resort_p_fq (s : Sched) : (STCF_resort s).p_fq = s.p_fq := by
  unfold STCF_resort; split <;> rfl

theorem mem_STCF_resort_q (j : pcb) (s : Sched) : j ∈ (STCF_resort s).q ↔ j ∈ s.q := by
  unfold STCF_resort; split
  · rfl
  · exact mem_sort_by_timetocompletion j s.q

@[simp]
theorem complete_p_time (s : Sched) : (complete s).p_time = s.p_time := by
  unfold complete; split
  · simp only []
    split
    · rfl
    · split <;> rfl
  · rfl

@[simp]
theorem complete_p_fq (s : Sched) : (complete s).p_fq = s.p_fq := by
  unfold complete; split
  · simp only []
    split
    · rfl
    · split <;> rfl
  · rfl

theorem complete_q_subset (s : Sched) (j : pcb) (h : j ∈ (complete s).q) : j ∈ s.q := by
  unfold complete at h
  split at h
  · simp only [] at h
    split at h
    · exact h
    · cases hq : s.q with
      | nil => simp [hq, remove_from_head] at h
      | cons a rest =>
        simp only [hq, remove_from_head] at h
        exact List.mem_cons_of_mem a h
  · exact h

theorem complete_proc (s : Sched) : (complete s).proc = s.proc ∨ (complete s).proc ∈ s.q := by
  unfold complete
  split
  · simp only []
    split
    · exact Or.inl rfl
    · cases hq : s.q with
      | nil => simp [remove_from_head]
      | cons a rest => simp [remove_from_head]
  · exact Or.inl rfl

theorem STCF_admission_q_mem (s : Sched) (j : pcb) (h : j ∈ (STCF_admission s).q) :
    j ∈ s.q ∨ (j ∈ s.p_fq ∧ j.ptimearrival < s.p_time) := by
  unfold STCF_admission at h
  split at h
  · exact Or.inl h
  · rename_i head rest hfq
    split at h
    · rename_i hlt
      simp only [hfq, remove_from_head, add_to_tail, List.mem_append, List.mem_singleton] at h
      rcases h with h | h
      · exact Or.inl h
      · subst h
        exact Or.inr ⟨by simp [hfq], hlt⟩
    · exact Or.inl h

theorem STCF_preempt_q_mem (s : Sched) (j : pcb) (h : j ∈ (STCF_preempt s).q) :
    j ∈ s.q ∨ j = s.proc := by
  unfold STCF_preempt at h
  split at h
  · exact Or.inl h
  · rename_i head rest hq
    split at h
    · simp only [hq, add_to_tail, remove_from_head, List.cons_append, List.mem_append,
        List.mem_singleton] at h
      rcases h with h | h
      · exact Or.inl (by rw [hq]; exact List.mem_cons_of_mem head h)
      · exact Or.inr h
    · exact Or.inl h

theorem STCF_preempt_proc (s : Sched) :
    (STCF_preempt s).proc = s.proc ∨ (STCF_preempt s).proc ∈ s.q := by
  unfold STCF_preempt
  split
  · exact Or.inl rfl
  · rename_i head rest hq
    split
    · simp [hq, add_to_tail, remove_from_head]
    · exact Or.inl rfl

theorem STCF_sorted_arrived (s : Sched) (h : Arrived s) : Arrived (STCF_sorted s) := by
  intro j hj
  simp only [STCF_sorted, mem_sort_by_timetocompletion] at hj
  simp only [STCF_sorted_p_time]
  rcases STCF_admission_q_mem _ j hj with h1 | ⟨_, h2⟩
  · exact Nat.lt_succ_of_lt (h j h1)
  · simpa using h2

@[simp]
theorem STCF_execute_p_time (s : Sched) : (STCF_execute s).1.p_time = s.p_time + 1 := by
  unfold STCF_execute
  simp only []
  split <;> simp

theorem STCF_execute_arrived (s : Sched) (h : Arrived s) : Arrived (STCF_execute s).1 := by
  have h3 := STCF_sorted_arrived s h
  intro j hj
  unfold STCF_execute at hj ⊢
  simp only [] at hj ⊢
  split at hj
  · rename_i hlt
    simp only [STCF_first_run_q, STCF_first_run_p_time, STCF_preempt_p_time] at hj ⊢
    simp only [if_pos hlt, STCF_first_run_p_time, STCF_preempt_p_time]
    rcases STCF_preempt_q_mem _ j hj with h1 | h1
    · exact h3 j h1
    · rw [h1]; exact hlt
  · rename_i hlt
    simp only [if_neg hlt]
    exact h3 j hj

theorem STCF_execute_running (s : Sched) (h : Arrived s) (p : pcb)
    (hp : (STCF_execute s).2 = some p) : p.ptimearrival < s.p_time + 1 := by
  have h3 := STCF_sorted_arrived s h
  unfold STCF_execute at hp
  simp only [] at hp
  split at hp
  · rename_i hlt
    simp only [Option.some.injEq] at hp
    subst hp
    simp only [dec_timeleft_arrival, STCF_first_run_arrival]
    rcases STCF_preempt_proc (STCF_sorted s) with h1 | h1
    · rw [h1]; simpa using hlt
    · simpa using h3 _ h1
  · cases hp

theorem STCF_tick_cont (s s1 : Sched) (line : TraceLine)
    (h : STCF_tick s = Outcome.cont s1 line) :
    loop_break (advance s) = false ∧ s1 = complete (STCF_resort (STCF_execute s).1) ∧
    line.running = (STCF_execute s).2 ∧ line.tick = s.p_time + 1 ∧
    line.ready = (STCF_resort (STCF_execute s).1).q := by
  unfold STCF_tick at h
  simp only [] at h
  split at h
  · cases h
  · rename_i hb
    injection h with h1 h2
    subst h1 h2
    exact ⟨by simpa using hb, rfl, rfl, by simp, rfl⟩

theorem STCF_tick_arrived (s s1 : Sched) (line : TraceLine) (h : Arrived s)
    (ht : STCF_tick s = Outcome.cont s1 line) : Arrived s1 := by
  obtain ⟨_, rfl, _⟩ := STCF_tick_cont s s1 line ht
  intro j hj
  have hj1 := (mem_STCF_resort_q j _).1 (complete_q_subset _ j hj)
  simpa using STCF_execute_arrived s h j hj1

theorem FIFO_tick_cont (s s1 : Sched) (line : TraceLine)
    (h : FIFO_tick s = Outcome.cont s1 line) :
    loop_break (advance s) = false ∧
    s1 = complete (execute (first_run (FIFO_admission (advance s)))).1 ∧
    line.running = (execute (first_run (FIFO_admission (advance s)))).2 ∧
    line.tick = s.p_time + 1 ∧
    line.ready = (execute (first_run (FIFO_admission (advance s)))).1.q := by
  unfold FIFO_tick at h
  simp only [] at h
  split at h
  · cases h
  · rename_i hb
    injection h with h1 h2
    subst h1 h2
    refine ⟨by simpa using hb, rfl, rfl, ?_, rfl⟩
    unfold execute
    simp only []
    split <;> simp

theorem SJF_tick_cont (s s1 : Sched) (line : TraceLine)
    (h : SJF_tick s = Outcome.cont s1 line) :
    loop_break (advance s) = false ∧
    s1 = complete (execute (first_run (SJF_admission (advance s)))).1 ∧
    line.running = (execute (first_run (SJF_admission (advance s)))).2 ∧
    line.tick = s.p_time + 1 ∧
    line.ready = (execute (first_run (SJF_admission (advance s)))).1.q := by
  unfold SJF_tick at h
  simp only [] at h
  split at h
  · cases h
  · rename_i hb
    injection h with h1 h2
    subst h1 h2
    refine ⟨by simpa using hb, rfl, rfl, ?_, rfl⟩
    unfold execute
    simp only []
    split <;> simp

theorem RR_tick_cont (s s1 : Sched) (line : TraceLine)
    (h : RR_tick s = Outcome.cont s1 line) :
    loop_break (advance s) = false ∧
    s1 = RR_rotate (RR_complete (RR_execute (first_run (RR_admission (advance s)))).1) ∧
    line.running = (RR_execute (first_run (RR_admission (advance s)))).2 ∧
    line.tick = s.p_time + 1 ∧
    line.ready = (RR_execute (first_run (RR_admission (advance s)))).1.q := by
  unfold RR_tick at h
  simp only [] at h
  split at h
  · cases h
  · rename_i hb
    injection h with h1 h2
    subst h1 h2
    refine ⟨by simpa using hb, rfl, rfl, ?_, rfl⟩
    unfold RR_execute
    simp only []
    split <;> simp

theorem execute_running (s : Sched) (p : pcb) (hp : (execute s).2 = some p) :
    p.ptimearrival < s.p_time ∧ p = dec_timeleft s.proc := by
  unfold execute at hp
  simp only [] at hp
  split at hp
  · rename_i hlt
    simp only [Option.some.injEq] at hp
    subst hp
    exact ⟨by simpa using hlt, rfl⟩
  · cases hp

theorem RR_execute_running (s : Sched) (p : pcb) (hp : (RR_execute s).2 = some p) :
    p.ptimearrival < s.p_time ∧ p = dec_timeleft s.proc := by
  unfold RR_execute at hp
  simp only [] at hp
  split at hp
  · rename_i hlt
    simp only [Option.some.injEq] at hp
    subst hp
    exact ⟨by simpa using hlt, rfl⟩
  · cases hp

/-- An invariant that holds at the top of the loop and is kept by every
iteration holds after any number of iterations. -/
theorem state_after_invariant (pol : Policy) (P : Sched → Prop)
    (hstep : ∀ s s1 line, P s → tick pol s = Outcome.cont s1 line → P s1) :
    ∀ (n : Nat) (s0 s : Sched), P s0 → state_after pol n s0 = some s → P s := by
  intro n
  induction n with
  | zero =>
    intro s0 s h0 h
    simp only [state_after, Option.some.injEq] at h
    exact h ▸ h0
  | succ k ih =>
    intro s0 s h0 h
    unfold state_after at h
    split at h
    · cases h
    · rename_i s1 line ht
      exact ih s1 s (hstep s0 s1 line h0 ht) h

theorem sched_init_some (p_fq : dlq) (p_time : Nat) (s0 : Sched)
    (h : sched_init p_fq p_time = some s0) :
    ∃ proc rest, p_fq = proc :: rest ∧
      s0 = { p_fq := rest, q := [], proc := proc, p_time := p_time,
             num_processes := 1, response_time := 0, turnaround_time := 0,
             first_arrival := proc.ptimearrival, proc_time := 0 } := by
  cases p_fq with
  | nil => simp [sched_init, remove_from_head] at h
  | cons proc rest =>
    simp only [sched_init, remove_from_head, Option.some.injEq] at h
    exact ⟨proc, rest, rfl, h.symm⟩

theorem run_state_some (pol : Policy) (p_fq : dlq) (p_time n : Nat) (s : Sched)
    (h : run_state pol p_fq p_time n = some s) :
    ∃ s0, sched_init p_fq p_time = some s0 ∧ state_after pol n s0 = some s := by
  unfold run_state at h
  cases hi : sched_init p_fq p_time with
  | none => simp [hi] at h
  | some s0 => exact ⟨s0, rfl, by simpa [hi] using h⟩

/-- C3: arrival strictness.  Under each of the four policies, at every tick of
a run on a non-empty job list, a job that executes (its remaining time is
decremented and its name printed) at tick `t` has `ptimearrival < t`; for STCF
this covers the job swapped in by the preemption check. -/
theorem C3_arrival_strictness (pol : Policy) (p_fq : dlq) (p_time n : Nat)
    (s s1 : Sched) (line : TraceLine) (p : pcb)
    (hs : run_state pol p_fq p_time n = some s)
    (ht : tick pol s = Outcome.cont s1 line)
    (hp : line.running = some p) :
    line.tick = s.p_time + 1 ∧ p.ptimearrival < line.tick ∧ p.ptimearrival ≠ line.tick := by
  suffices h : line.tick = s.p_time + 1 ∧ p.ptimearrival < line.tick from
    ⟨h.1, h.2, Nat.ne_of_lt h.2⟩
  cases pol with
  | FIFO =>
    obtain ⟨_, _, hr, htk, _⟩ := FIFO_tick_cont s s1 line ht
    rw [hr] at hp
    exact ⟨htk, by simpa [htk] using (execute_running _ p hp).1⟩
  | SJF =>
    obtain ⟨_, _, hr, htk, _⟩ := SJF_tick_cont s s1 line ht
    rw [hr] at hp
    exact ⟨htk, by simpa [htk] using (execute_running _ p hp).1⟩
  | RR =>
    obtain ⟨_, _, hr, htk, _⟩ := RR_tick_cont s s1 line ht
    rw [hr] at hp
    exact ⟨htk, by simpa [htk] using (RR_execute_running _ p hp).1⟩
  | STCF =>
    obtain ⟨s0, hi, hn⟩ := run_state_some _ _ _ _ _ hs
    obtain ⟨proc, rest, _, h0⟩ := sched_init_some _ _ _ hi
    have harr0 : Arrived s0 := by
      subst h0
      intro j hj
      simp at hj
    have harr : Arrived s :=
      state_after_invariant Policy.STCF Arrived
        (fun a b l ha hab => STCF_tick_arrived a b l ha hab) n s0 s harr0 hn
    obtain ⟨_, _, hr, htk, _⟩ := STCF_tick_cont s s1 line ht
    rw [hr] at hp
    exact ⟨htk, by simpa [htk] using STCF_execute_running s harr p hp⟩

/-- Witness for C3: tick 2 of the STCF run on A(4,0), B(2,1), where B has been swapped in. -/
theorem C3_arrival_strictness_witness :
    (2 = 1 + 1 ∧ jobB.ptimearrival < 2 ∧ jobB.ptimearrival ≠ 2) :=
  C3_arrival_strictness Policy.STCF [jobA, jobB] 0 1
    { p_fq := [jobB], q := [], proc := dec_timeleft jobA, p_time := 1, num_processes := 1,
      response_time := 0, turnaround_time := 0, first_arrival := 0, proc_time := 0 }
    { p_fq := [], q := [dec_timeleft jobA], proc := dec_timeleft jobB, p_time := 2,
      num_processes := 1, response_time := 0, turnaround_time := 0, first_arrival := 0,
      proc_time := 0 }
    { tick := 2, running := some (dec_timeleft jobB), ready := [dec_timeleft jobA] }
    (dec_timeleft jobB) rfl rfl rfl

/-! ### Admission -/

/-- Counterexample to C4 as stated: FIFO on three jobs with arrival 0; after the
admission step of tick 1 the feed still holds J3, whose arrival time 0 is
before tick 1. -/
theorem C4_counterexample :
    sched_init threeAtZero 0 = some threeAtZero_init ∧
    ¬ (∀ j ∈ (admission Policy.FIFO (advance threeAtZero_init)).p_fq,
        ¬ j.ptimearrival < (advance threeAtZero_init).p_time) := by
  refine ⟨rfl, ?_⟩
  intro h
  exact h (tokenize_pdata "J3" 3 2 0) (by decide) (by decide)

/-- C4 (amended): the admission step of tick `t = p_time + 1` moves at most one
job.  If the feed head has `ptimearrival < t`, exactly that head leaves the feed
and is appended to the ready queue (which SJF then re-sorts), the rest of the
feed staying as it is; otherwise feed and ready queue are unchanged, and
if the feed is sorted by arrival no job in it has `ptimearrival < t`. -/
theorem C4_admission_moves_head_only (pol : Policy) (s : Sched) :
    (∀ head rest, s.p_fq = head :: rest → head.ptimearrival < s.p_time + 1 →
      (admission pol (advance s)).p_fq = rest ∧
      (admission pol (advance s)).q =
        (if pol = Policy.SJF then sort_by_timetocompletion (s.q ++ [head])
         else s.q ++ [head])) ∧
    ((∀ head rest, s.p_fq = head :: rest → ¬ head.ptimearrival < s.p_time + 1) →
      (admission pol (advance s)).p_fq = s.p_fq ∧ (admission pol (advance s)).q = s.q ∧
      (s.p_fq.Pairwise (fun a b => a.ptimearrival ≤ b.ptimearrival) →
        ∀ j ∈ s.p_fq, ¬ j.ptimearrival < s.p_time + 1)) := by
  constructor
  · intro head rest hfq hlt
    cases pol <;>
      simp [admission, FIFO_admission, SJF_admission, STCF_admission, RR_admission, advance,
        hfq, hlt, remove_from_head, add_to_tail]
  · intro hno
    cases hfq : s.p_fq with
    | nil =>
      cases pol <;>
        simp [admission, FIFO_admission, SJF_admission, STCF_admission, RR_admission, advance,
          hfq]
    | cons head rest =>
      have hge := hno head rest hfq
      refine ⟨?_, ?_, ?_⟩
      · cases pol <;>
          simp [admission, FIFO_admission, SJF_admission, STCF_admission, RR_admission,
            advance, hfq, hge]
      · cases pol <;>
          simp [admission, FIFO_admission, SJF_admission, STCF_admission, RR_admission,
            advance, hfq, hge]
      · intro hsorted j hj
        rcases List.mem_cons.1 hj with rfl | hj
        · exact hge
        · have := List.rel_of_pairwise_cons hsorted hj
          omega

/-- Witness for C4 (amended): at tick 1 of the FIFO run on three jobs with
arrival 0 exactly J2 is moved and J3 stays in the feed. -/
theorem C4_admission_moves_head_only_witness :
    (admission Policy.FIFO (advance threeAtZero_init)).p_fq = [tokenize_pdata "J3" 3 2 0] ∧
    (admission Policy.FIFO (advance threeAtZero_init)).q =
      (if Policy.FIFO = Policy.SJF
        then sort_by_timetocompletion (threeAtZero_init.q ++ [tokenize_pdata "J2" 2 2 0])
        else threeAtZero_init.q ++ [tokenize_pdata "J2" 2 2 0]) :=
  (C4_admission_moves_head_only Policy.FIFO threeAtZero_init).1
    (tokenize_pdata "J2" 2 2 0) [tokenize_pdata "J3" 3 2 0] rfl (by decide)

/-! ### A completed job left in the running slot -/

/-- C5 (code evaluated at the failing input): FIFO on A(1,0), B(1,1).  After tick 1
A has remaining time 0 and stays in the running slot because the ready queue is
empty and the feed is not; at tick 2 A is decremented again and its remaining
time wraps to 4294967295.  The same happens under SJF, STCF and RR. -/
theorem C5_completed_job_wraps :
    (run_state Policy.FIFO [shortA, shortB] 0 1).map
        (fun s => (s.proc.pname, s.proc.ptimeleft, print_q s.q, print_q s.p_fq))
      = some ("A", 0, [], [("B", 1)])
    ∧ (run_line Policy.FIFO [shortA, shortB] 0 1).map render_left
      = some (2, some ("A", 4294967295), [("B", 1)])
    ∧ (run_line Policy.SJF [shortA, shortB] 0 1).map render_left
      = some (2, some ("A", 4294967295), [("B", 1)])
    ∧ (run_line Policy.STCF [shortA, shortB] 0 1).map render_left
      = some (2, some ("A", 4294967295), [("B", 1)])
    ∧ (run_line Policy.RR [shortA, shortB] 0 1).map render_left
      = some (2, some ("A", 4294967295), [("B", 1)]) :=
  ⟨rfl, rfl, rfl, rfl, rfl⟩

theorem state_after_add (pol : Policy) (m n : Nat) (s : Sched) :
    state_after pol (m + n) s = (state_after pol m s).bind (state_after pol n) := by
  induction m generalizing s with
  | zero => simp [state_after]
  | succ k ih =>
    rw [Nat.succ_add]
    simp only [state_after]
    split
    · rfl
    · exact ih _

/-- A run whose state after `n` iterations takes the `break` ends within `n + 1`
iterations in that state. -/
theorem run_loop_of_state_after (pol : Policy) (n : Nat) :
    ∀ (s0 s s1 : Sched) (acc : List TraceLine), state_after pol n s0 = some s →
      tick pol s = Outcome.halt s1 → ∃ trace, run_loop pol (n + 1) s0 acc = some (s1, trace) := by
  induction n with
  | zero =>
    intro s0 s s1 acc h ht
    simp only [state_after, Option.some.injEq] at h
    subst h
    exact ⟨acc, by simp [run_loop, ht]⟩
  | succ k ih =>
    intro s0 s s1 acc h ht
    unfold state_after at h
    split at h
    · cases h
    · rename_i s2 line hs2
      obtain ⟨trace, htr⟩ := ih s2 s s1 (acc ++ [line]) h ht
      exact ⟨trace, by rw [run_loop, hs2]; exact htr⟩

theorem run_state_add (pol : Policy) (p_fq : dlq) (p_time m n : Nat) :
    run_state pol p_fq p_time (m + n)
      = (run_state pol p_fq p_time m).bind (state_after pol n) := by
  unfold run_state
  cases sched_init p_fq p_time with
  | none => rfl
  | some s0 => simp [state_after_add]

theorem run_state_halts (pol : Policy) (p_fq : dlq) (p_time n : Nat) (s s1 : Sched)
    (h : run_state pol p_fq p_time n = some s) (ht : tick pol s = Outcome.halt s1) :
    ∃ trace, sched pol (n + 1) p_fq p_time = some (metrics_of s1, trace) := by
  obtain ⟨s0, hi, hn⟩ := run_state_some pol p_fq p_time n s h
  obtain ⟨trace, htr⟩ := run_loop_of_state_after pol n s0 s s1 [] hn ht
  exact ⟨trace, by simp [sched, hi, htr]⟩

theorem run_state_extend (pol : Policy) (p_fq : dlq) (p_time m n : Nat) (s s1 : Sched)
    (h1 : run_state pol p_fq p_time m = some s) (h2 : state_after pol n s = some s1) :
    run_state pol p_fq p_time (m + n) = some s1 := by
  rw [run_state_add, h1]
  exact h2

/-! ### Metrics of the example run -/

/-- C7 (code evaluated at the failing input): STCF on A(4,0), B(2,1), both
created by `tokenize_pdata` with `isfirstinstancetime = 1`.  The first-run test of
`sched_STCF` is `isfirstinstancetime == 0`, so it never fires: every executing
job still has flag 1 and `pfirstinstanceruntime` 0, and the response total
handed to `print_matrics` is 0, not 2.  FIFO on the same jobs records the first
runs (ticks 1 and 5). -/
theorem C7_stcf_first_run_never_recorded :
    (sched_STCF 7 [jobA, jobB] 0).map (fun r => (r.1.response_time,
        r.2.map (fun l => l.running.map
          (fun p => (p.pname, p.isfirstinstancetime, p.pfirstinstanceruntime)))))
      = some (0, [some ("A", 1, 0), some ("B", 1, 0), some ("B", 1, 0), some ("A", 1, 0),
                  some ("A", 1, 0), some ("A", 1, 0)])
    ∧ (sched_FIFO 7 [jobA, jobB] 0).map (fun r => (r.1.response_time,
        r.2.map (fun l => l.running.map
          (fun p => (p.pname, p.isfirstinstancetime, p.pfirstinstanceruntime)))))
      = some (5, [some ("A", 0, 1), some ("A", 0, 1), some ("A", 0, 1), some ("A", 0, 1),
                  some ("B", 0, 5), some ("B", 0, 5)]) :=
  ⟨rfl, rfl⟩

/-- C8 (code evaluated at the failing input): on the two jobs A(4,0), B(2,1)
`sched_STCF` hands `num_processes = 1` to `print_matrics`, while `sched_FIFO`,
`sched_SJF` and `sched_RR` hand over 2. -/
theorem C8_stcf_num_processes_not_counted :
    (sched_STCF 7 [jobA, jobB] 0).map (fun r => r.1.num_processes) = some 1
    ∧ (sched_FIFO 7 [jobA, jobB] 0).map (fun r => r.1.num_processes) = some 2
    ∧ (sched_SJF 7 [jobA, jobB] 0).map (fun r => r.1.num_processes) = some 2
    ∧ (sched_RR 7 [jobA, jobB] 0).map (fun r => r.1.num_processes) = some 2 :=
  ⟨rfl, rfl, rfl, rfl⟩

/-- Counterexample to C9 as stated: the FIFO run on A(4,0), B(2,1) does not
hand 2, 0, 6 to `print_matrics` with throughput 1/3. -/
theorem C9_counterexample :
    (sched_FIFO 7 [jobA, jobB] 0).map (fun r => r.1) = some fifo_example_metrics ∧
    ¬ (fifo_example_metrics.num_processes = 2 ∧ fifo_example_metrics.first_arrival = 0 ∧
       fifo_example_metrics.system_time = 6 ∧ through_put fifo_example_metrics = 1 / 3) := by
  refine ⟨rfl, ?_⟩
  rintro ⟨_, _, h, _⟩
  exact absurd h (by decide)

/-- C9 (amended): the FIFO run on A(4,0), B(2,1) hands `num_processes = 2`,
`first_arrival = 0` and `system_time = 7` to `print_matrics` (the counter is
advanced once more before the `break`), so the throughput is 2 / (7 - 0) = 2/7. -/
theorem C9_fifo_example_metrics :
    (sched_FIFO 7 [jobA, jobB] 0).map (fun r => r.1) = some fifo_example_metrics ∧
    fifo_example_metrics.num_processes = 2 ∧ fifo_example_metrics.first_arrival = 0 ∧
    fifo_example_metrics.system_time = 7 ∧ through_put fifo_example_metrics = 2 / 7 := by
  refine ⟨rfl, rfl, rfl, rfl, ?_⟩
  simp only [through_put, fifo_example_metrics]
  norm_num

/-! ### The exchange sort sorts.
The two sorts differ in the key only; the facts are proved once for a pass
over an arbitrary key, on the queue read tail first. -/

theorem ttc_pass_from_eq (node : pcb) (l : List pcb) :
    ttc_pass_from node l = key_pass_from pcb.ptimeleft node l := by
  induction l generalizing node with
  | nil => rfl
  | cons next rest ih => simp only [ttc_pass_from, key_pass_from, ih]

theorem ttc_pass_eq : ttc_pass = key_pass pcb.ptimeleft := by
  funext l
  cases l with
  | nil => rfl
  | cons node rest => exact ttc_pass_from_eq node rest

theorem sort_by_timetocompletion_eq (q : dlq) :
    sort_by_timetocompletion q = exchange_sort pcb.ptimeleft q := by
  unfold sort_by_timetocompletion exchange_sort
  rw [ttc_pass_eq]

theorem arr_pass_from_eq (node : pcb) (l : List pcb) :
    arr_pass_from node l = key_pass_from pcb.ptimearrival node l := by
  induction l generalizing node with
  | nil => rfl
  | cons next rest ih => simp only [arr_pass_from, key_pass_from, ih]

theorem arr_pass_eq : arr_pass = key_pass pcb.ptimearrival := by
  funext l
  cases l with
  | nil => rfl
  | cons node rest => exact arr_pass_from_eq node rest

theorem sort_by_arrival_time_eq (q : dlq) :
    sort_by_arrival_time q = exchange_sort pcb.ptimearrival q := by
  unfold sort_by_arrival_time exchange_sort
  rw [arr_pass_eq]

theorem key_pass_from_perm (key : pcb → Nat) (node : pcb) (l : List pcb) :
    (key_pass_from key node l).Perm (node :: l) := by
  induction l generalizing node with
  | nil => simp [key_pass_from]
  | cons next rest ih =>
    unfold key_pass_from
    split
    · exact ((ih node).cons next).trans (List.Perm.swap node next rest)
    · exact (ih next).cons node

theorem key_pass_perm (key : pcb → Nat) (l : List pcb) : (key_pass key l).Perm l := by
  cases l with
  | nil => simp [key_pass]
  | cons node rest => exact key_pass_from_perm key node rest

theorem key_iterate_perm (key : pcb → Nat) (n : Nat) (l : List pcb) :
    (Nat.iterate (key_pass key) n l).Perm l := by
  induction n generalizing l with
  | zero => simp
  | succ k ih =>
    rw [Function.iterate_succ_apply]
    exact (ih (key_pass key l)).trans (key_pass_perm key l)

theorem exchange_sort_perm (key : pcb → Nat) (q : dlq) : (exchange_sort key q).Perm q := by
  unfold exchange_sort
  exact ((List.reverse_perm _).trans (key_iterate_perm key _ _)).trans (List.reverse_perm q)

/-- A pass over a queue that is already in order leaves it alone. -/
theorem key_pass_from_sorted (key : pcb → Nat) (c : pcb) (back : List pcb)
    (h : (c :: back).Pairwise (fun a b => key b ≤ key a)) :
    key_pass_from key c back = c :: back := by
  induction back generalizing c with
  | nil => rfl
  | cons b bs ih =>
    have hcb : key b ≤ key c := List.rel_of_pairwise_cons h (List.mem_cons_self b bs)
    have hrest := List.Pairwise.of_cons h
    simp only [key_pass_from, Nat.not_lt.2 hcb, if_false, ih b hrest]

/-- A pass does not touch a final segment that is in order and not above the rest. -/
theorem key_pass_from_append (key : pcb → Nat) (l : List pcb) (node : pcb) (back : List pcb)
    (hback : back.Pairwise (fun a b => key b ≤ key a))
    (hle : ∀ x ∈ node :: l, ∀ y ∈ back, key y ≤ key x) :
    key_pass_from key node (l ++ back) = key_pass_from key node l ++ back := by
  induction l generalizing node with
  | nil =>
    simp only [List.nil_append, key_pass_from, List.singleton_append]
    exact key_pass_from_sorted key node back
      (List.pairwise_cons.2 ⟨fun y hy => hle node (List.mem_cons_self _ _) y hy, hback⟩)
  | cons next rest ih =>
    simp only [List.cons_append, key_pass_from]
    split
    · exact congrArg (List.cons next) (ih node (fun x hx y hy => hle x (by
        rcases List.mem_cons.1 hx with rfl | hx
        · exact List.mem_cons_self _ _
        · exact List.mem_cons_of_mem _ (List.mem_cons_of_mem _ hx)) y hy))
    · exact congrArg (List.cons node)
        (ih next (fun x hx y hy => hle x (List.mem_cons_of_mem _ hx) y hy))

/-- A pass leaves a least job in the last visited node. -/
theorem key_pass_from_min_last (key : pcb → Nat) (l : List pcb) (node : pcb) :
    ∃ init m, key_pass_from key node l = init ++ [m] ∧ key m ≤ key node ∧
      (∀ x ∈ init, key m ≤ key x) := by
  induction l generalizing node with
  | nil => exact ⟨[], node, rfl, Nat.le_refl _, fun x hx => (List.not_mem_nil x hx).elim⟩
  | cons next rest ih =>
    simp only [key_pass_from]
    split
    · rename_i hlt
      obtain ⟨init, m, he, hm, hall⟩ := ih node
      refine ⟨next :: init, m, by rw [he]; rfl, hm, ?_⟩
      intro x hx
      rcases List.mem_cons.1 hx with rfl | hx
      · omega
      · exact hall x hx
    · rename_i hge
      obtain ⟨init, m, he, hm, hall⟩ := ih next
      refine ⟨node :: init, m, by rw [he]; rfl, by omega, ?_⟩
      intro x hx
      rcases List.mem_cons.1 hx with rfl | hx
      · omega
      · exact hall x hx

theorem key_pass_inv (key : pcb → Nat) (k : Nat) (r : List pcb) (h : PassInv key k r)
    (hk : k < r.length) : PassInv key (k + 1) (key_pass key r) := by
  obtain ⟨front, back, rfl, hlen, hsorted, hle⟩ := h
  cases front with
  | nil => simp at hk; omega
  | cons node l =>
    obtain ⟨init, m, he, _, hall⟩ := key_pass_from_min_last key l node
    have hperm := key_pass_from_perm key node l
    have hm : m ∈ node :: l := hperm.mem_iff.1 (by rw [he]; simp)
    have hinit : ∀ x ∈ init, x ∈ node :: l := fun x hx =>
      hperm.mem_iff.1 (by rw [he]; exact List.mem_append_left _ hx)
    refine ⟨init, m :: back, ?_, by simp [hlen], ?_, ?_⟩
    · show key_pass_from key node (l ++ back) = _
      rw [key_pass_from_append key l node back hsorted hle, he]
      simp
    · exact List.pairwise_cons.2 ⟨fun y hy => hle m hm y hy, hsorted⟩
    · intro x hx y hy
      rcases List.mem_cons.1 hy with rfl | hy
      · exact hall x hx
      · exact hle x (hinit x hx) y hy

theorem key_iterate_inv (key : pcb → Nat) (r : List pcb) (k : Nat) (hk : k ≤ r.length) :
    PassInv key k (Nat.iterate (key_pass key) k r) := by
  induction k with
  | zero => exact ⟨r, [], by simp, rfl, List.Pairwise.nil, fun _ _ y hy => by simp at hy⟩
  | succ k ih =>
    rw [Function.iterate_succ_apply']
    refine key_pass_inv key k _ (ih (by omega)) ?_
    rw [(key_iterate_perm key k r).length_eq]
    omega

/-- The `n - 1` passes of an exchange sort leave the queue in ascending key order. -/
theorem exchange_sort_sorted (key : pcb → Nat) (q : dlq) :
    (exchange_sort key q).Pairwise (fun a b => key a ≤ key b) := by
  unfold exchange_sort
  rw [List.pairwise_reverse]
  obtain ⟨front, back, he, hlen, hsorted, hle⟩ :=
    key_iterate_inv key q.reverse (q.length - 1) (by simp)
  have hlen2 := (key_iterate_perm key (q.length - 1) q.reverse).length_eq
  rw [he] at hlen2 ⊢
  simp only [List.length_append, List.length_reverse] at hlen2
  rw [List.pairwise_append]
  refine ⟨?_, hsorted, fun x hx y hy => hle x hx y hy⟩
  have hfront : front.length ≤ 1 := by omega
  match front, hfront with
  | [], _ => exact List.Pairwise.nil
  | [x], _ => exact List.pairwise_singleton _ x

theorem sort_by_timetocompletion_sorted (q : dlq) :
    (sort_by_timetocompletion q).Pairwise (fun a b => a.ptimeleft ≤ b.ptimeleft) := by
  rw [sort_by_timetocompletion_eq]
  exact exchange_sort_sorted pcb.ptimeleft q

theorem sort_by_arrival_time_sorted (q : dlq) :
    (sort_by_arrival_time q).Pairwise (fun a b => a.ptimearrival ≤ b.ptimearrival) := by
  rw [sort_by_arrival_time_eq]
  exact exchange_sort_sorted pcb.ptimearrival q

/-! ### STCF: the running job is never longer than a ready job -/

theorem STCF_sorted_idle (s : Sched) (h : IdleInv s)
    (hidle : s.p_time + 1 ≤ s.proc.ptimearrival) :
    STCF_sorted s = { advance s with q := [] } ∧ s.q = [] := by
  obtain ⟨hq, hfq⟩ := h (by omega)
  refine ⟨?_, hq⟩
  unfold STCF_sorted STCF_admission
  cases hp : s.p_fq with
  | nil => simp [advance, hp, hq, sort_by_timetocompletion]
  | cons head rest =>
    have hh : ¬ head.ptimearrival < s.p_time + 1 := by
      have := hfq head (by simp [hp])
      omega
    simp [advance, hp, hq, hh, sort_by_timetocompletion]

theorem complete_idem_of_empty (s : Sched) (hq : s.q = []) :
    (complete s).q = [] ∧ (complete s).proc = s.proc := by
  unfold complete
  split
  · simp [hq, is_empty]
  · exact ⟨hq, rfl⟩

theorem STCF_tick_idle_inv (s s1 : Sched) (line : TraceLine) (ha : Arrived s) (h : IdleInv s)
    (ht : STCF_tick s = Outcome.cont s1 line) : IdleInv s1 := by
  obtain ⟨_, rfl, _⟩ := STCF_tick_cont s s1 line ht
  intro hge
  simp only [complete_p_time, STCF_resort_p_time, STCF_execute_p_time] at hge
  by_cases hidle : s.p_time + 1 ≤ s.proc.ptimearrival
  · obtain ⟨hs3, hq⟩ := STCF_sorted_idle s h hidle
    have hex : STCF_execute s = ({ advance s with q := [] }, none) := by
      unfold STCF_execute
      simp only [hs3]
      have : ¬ s.proc.ptimearrival < s.p_time + 1 := by omega
      simp [advance, this]
    have hres : STCF_resort (STCF_execute s).1 = { advance s with q := [] } := by
      rw [hex]; simp [STCF_resort, is_empty]
    obtain ⟨hcq, hcp⟩ := complete_idem_of_empty { advance s with q := [] } rfl
    rw [hres]
    refine ⟨hcq, ?_⟩
    rw [hcp, complete_p_fq]
    exact (h (by omega)).2
  · exfalso
    have hlt : s.proc.ptimearrival < s.p_time + 1 := by omega
    have harr := STCF_execute_arrived s ha
    have hproc : (STCF_execute s).1.proc.ptimearrival < s.p_time + 1 := by
      have h3 := STCF_sorted_arrived s ha
      unfold STCF_execute
      simp only [STCF_sorted_proc, STCF_sorted_p_time, if_pos hlt, dec_timeleft_arrival,
        STCF_first_run_arrival]
      rcases STCF_preempt_proc (STCF_sorted s) with h1 | h1
      · rw [h1]; simpa using hlt
      · simpa using h3 _ h1
    rcases complete_proc (STCF_resort (STCF_execute s).1) with h1 | h1
    · rw [h1, STCF_resort_proc] at hge
      omega
    · have := harr _ ((mem_STCF_resort_q _ _).1 h1)
      simp only [STCF_execute_p_time] at this
      omega

/-- C10: STCF shortest-first invariant.  In every run of `sched_STCF` on a
non-empty job list sorted by arrival, at every tick `n + 1` the run reaches,
immediately after the preemption check (and also when the check is skipped
because the running job has not arrived) the running job has remaining time
`≤` that of every job in the ready queue, in particular of its head. -/
theorem C10_stcf_shortest_first (p_fq : dlq) (p_time n : Nat) (s : Sched)
    (hsorted : p_fq.Pairwise (fun a b => a.ptimearrival ≤ b.ptimearrival))
    (hs : run_state Policy.STCF p_fq p_time n = some s) :
    (∀ j ∈ (STCF_checked s).q, (STCF_checked s).proc.ptimeleft ≤ j.ptimeleft) ∧
    (∀ head rest, (STCF_checked s).q = head :: rest →
      (STCF_checked s).proc.ptimeleft ≤ head.ptimeleft) := by
  suffices hall : ∀ j ∈ (STCF_checked s).q, (STCF_checked s).proc.ptimeleft ≤ j.ptimeleft from
    ⟨hall, fun head rest hq => hall head (by rw [hq]; exact List.mem_cons_self _ _)⟩
  obtain ⟨s0, hi, hn⟩ := run_state_some _ _ _ _ _ hs
  obtain ⟨proc, rest, hfq, h0⟩ := sched_init_some _ _ _ hi
  have hinv0 : Arrived s0 ∧ IdleInv s0 := by
    subst h0
    refine ⟨fun j hj => by simp at hj, fun _ => ⟨rfl, ?_⟩⟩
    rw [hfq] at hsorted
    exact fun j hj => List.rel_of_pairwise_cons hsorted hj
  have hinv : Arrived s ∧ IdleInv s :=
    state_after_invariant Policy.STCF (fun x => Arrived x ∧ IdleInv x)
      (fun a b l ha hab => ⟨STCF_tick_arrived a b l ha.1 hab, STCF_tick_idle_inv a b l ha.1 ha.2 hab⟩)
      n s0 s hinv0 hn
  have hsrt : (STCF_sorted s).q.Pairwise (fun a b => a.ptimeleft ≤ b.ptimeleft) := by
    simp only [STCF_sorted]
    exact sort_by_timetocompletion_sorted _
  intro j hj
  unfold STCF_checked at hj ⊢
  simp only [] at hj ⊢
  by_cases hlt : (STCF_sorted s).proc.ptimearrival < (STCF_sorted s).p_time
  · simp only [if_pos hlt] at hj ⊢
    unfold STCF_preempt at hj ⊢
    cases hq : (STCF_sorted s).q with
    | nil => simp [hq] at hj
    | cons head tl =>
      rw [hq] at hsrt
      have hhead : ∀ x ∈ tl, head.ptimeleft ≤ x.ptimeleft :=
        fun x hx => List.rel_of_pairwise_cons hsrt hx
      simp only [hq] at hj ⊢
      by_cases hsw : head.ptimeleft < (STCF_sorted s).proc.ptimeleft
      · simp only [if_pos hsw, add_to_tail, remove_from_head, List.cons_append, List.mem_append,
          List.mem_singleton] at hj ⊢
        rcases hj with hj | hj
        · exact hhead j hj
        · rw [hj]; omega
      · simp only [if_neg hsw, hq] at hj ⊢
        rcases List.mem_cons.1 hj with rfl | hj
        · omega
        · have := hhead j hj
          omega
  · simp only [if_neg hlt] at hj
    have hidle : s.p_time + 1 ≤ s.proc.ptimearrival := by
      simp only [STCF_sorted_proc, STCF_sorted_p_time] at hlt
      omega
    rw [(STCF_sorted_idle s hinv.2 hidle).1] at hj
    simp at hj

/-- Witness for C10: tick 2 of the STCF run on A(4,0), B(2,1), where the check swaps B in. -/
theorem C10_stcf_shortest_first_witness :
    (∀ j ∈ (STCF_checked
        { p_fq := [jobB], q := [], proc := dec_timeleft jobA, p_time := 1, num_processes := 1,
          response_time := 0, turnaround_time := 0, first_arrival := 0, proc_time := 0 }).q,
      (STCF_checked
        { p_fq := [jobB], q := [], proc := dec_timeleft jobA, p_time := 1, num_processes := 1,
          response_time := 0, turnaround_time := 0, first_arrival := 0, proc_time := 0 }).proc.ptimeleft
        ≤ j.ptimeleft) ∧
    (∀ head rest, (STCF_checked
        { p_fq := [jobB], q := [], proc := dec_timeleft jobA, p_time := 1, num_processes := 1,
          response_time := 0, turnaround_time := 0, first_arrival := 0, proc_time := 0 }).q
        = head :: rest →
      (STCF_checked
        { p_fq := [jobB], q := [], proc := dec_timeleft jobA, p_time := 1, num_processes := 1,
          response_time := 0, turnaround_time := 0, first_arrival := 0, proc_time := 0 }).proc.ptimeleft
        ≤ head.ptimeleft) :=
  C10_stcf_shortest_first [jobA, jobB] 0 1 _ (by decide) rfl

/-! ### The exchange sort is the stable sort -/

theorem with_key_cons (key : pcb → Nat) (k : Nat) (x : pcb) (l : List pcb) :
    with_key key k (x :: l) = if key x = k then x :: with_key key k l else with_key key k l := by
  unfold with_key
  by_cases h : key x = k <;> simp [List.filter_cons, h]

theorem with_key_swap (key : pcb → Nat) (k : Nat) (x y : pcb) (l : List pcb)
    (h : key x ≠ key y) : with_key key k (x :: y :: l) = with_key key k (y :: x :: l) := by
  simp only [with_key_cons]
  by_cases hx : key x = k
  · have hy : key y ≠ k := fun hy => h (hx.trans hy.symm)
    simp [hx, hy]
  · simp [hx]

/-- A pass never moves a job past another job with the same key. -/
theorem key_pass_from_with_key (key : pcb → Nat) (k : Nat) (l : List pcb) (node : pcb) :
    with_key key k (key_pass_from key node l) = with_key key k (node :: l) := by
  induction l generalizing node with
  | nil => rfl
  | cons next rest ih =>
    simp only [key_pass_from]
    split
    · rename_i hlt
      rw [with_key_swap key k node next rest (by omega)]
      rw [with_key_cons, ih node, with_key_cons key k next]
    · rw [with_key_cons, ih next, with_key_cons key k node]

theorem key_pass_with_key (key : pcb → Nat) (k : Nat) (l : List pcb) :
    with_key key k (key_pass key l) = with_key key k l := by
  cases l with
  | nil => rfl
  | cons node rest => exact key_pass_from_with_key key k rest node

theorem key_iterate_with_key (key : pcb → Nat) (k n : Nat) (l : List pcb) :
    with_key key k (Nat.iterate (key_pass key) n l) = with_key key k l := by
  induction n generalizing l with
  | zero => rfl
  | succ m ih => rw [Function.iterate_succ_apply, ih, key_pass_with_key]

/-- Stability of the exchange sort: jobs with equal keys keep their order. -/
theorem exchange_sort_with_key (key : pcb → Nat) (k : Nat) (q : dlq) :
    with_key key k (exchange_sort key q) = with_key key k q := by
  have h := key_iterate_with_key key k (q.length - 1) q.reverse
  unfold with_key at h ⊢
  unfold exchange_sort
  rw [List.filter_reverse, h, List.filter_reverse, List.reverse_reverse]

/-- Two queues in ascending key order that agree, for every key value, on the
sequence of jobs with that key are the same queue. -/
theorem sorted_with_key_unique (key : pcb → Nat) (l1 : List pcb) :
    ∀ l2 : List pcb, l1.Pairwise (fun a b => key a ≤ key b) →
      l2.Pairwise (fun a b => key a ≤ key b) →
      (∀ k, with_key key k l1 = with_key key k l2) → l1 = l2 := by
  induction l1 with
  | nil =>
    intro l2 _ _ h
    cases l2 with
    | nil => rfl
    | cons b t =>
      have := h (key b)
      simp [with_key] at this
  | cons a t1 ih =>
    intro l2 h1 h2 h
    cases l2 with
    | nil =>
      have := h (key a)
      simp [with_key] at this
    | cons b t2 =>
      have ha : a ∈ b :: t2 := by
        have hmem : a ∈ with_key key (key a) (a :: t1) := by simp [with_key]
        rw [h (key a)] at hmem
        exact (List.mem_filter.1 hmem).1
      have hb : b ∈ a :: t1 := by
        have hmem : b ∈ with_key key (key b) (b :: t2) := by simp [with_key]
        rw [← h (key b)] at hmem
        exact (List.mem_filter.1 hmem).1
      have hba : key b ≤ key a := by
        rcases List.mem_cons.1 ha with rfl | ha
        · exact Nat.le_refl _
        · exact List.rel_of_pairwise_cons h2 ha
      have hab : key a ≤ key b := by
        rcases List.mem_cons.1 hb with rfl | hb
        · exact Nat.le_refl _
        · exact List.rel_of_pairwise_cons h1 hb
      have hk : key b = key a := Nat.le_antisymm hba hab
      have h0 := h (key a)
      simp only [with_key_cons, hk, if_true, List.cons.injEq] at h0
      have hrest : ∀ k, with_key key k t1 = with_key key k t2 := by
        intro k
        by_cases hka : key a = k
        · subst hka; exact h0.2
        · have := h k
          simpa only [with_key_cons, hk, hka, if_false] using this
      rw [h0.1, ih t2 (List.Pairwise.of_cons h1) (List.Pairwise.of_cons h2) hrest]

theorem insert_by_perm (key : pcb → Nat) (x : pcb) (l : List pcb) :
    (insert_by key x l).Perm (x :: l) := by
  induction l with
  | nil => rfl
  | cons y ys ih =>
    simp only [insert_by]
    split
    · rfl
    · exact (ih.cons y).trans (List.Perm.swap x y ys)

theorem insert_by_sorted (key : pcb → Nat) (x : pcb) (l : List pcb)
    (h : l.Pairwise (fun a b => key a ≤ key b)) :
    (insert_by key x l).Pairwise (fun a b => key a ≤ key b) := by
  induction l with
  | nil => exact List.pairwise_singleton _ x
  | cons y ys ih =>
    simp only [insert_by]
    split
    · rename_i hle
      refine List.pairwise_cons.2 ⟨fun z hz => ?_, h⟩
      rcases List.mem_cons.1 hz with rfl | hz
      · exact hle
      · exact Nat.le_trans hle (List.rel_of_pairwise_cons h hz)
    · rename_i hgt
      refine List.pairwise_cons.2 ⟨fun z hz => ?_, ih (List.Pairwise.of_cons h)⟩
      rcases List.mem_cons.1 ((insert_by_perm key x ys).mem_iff.1 hz) with rfl | hz
      · omega
      · exact List.rel_of_pairwise_cons h hz

theorem insert_by_with_key (key : pcb → Nat) (k : Nat) (x : pcb) (l : List pcb) :
    with_key key k (insert_by key x l) = with_key key k (x :: l) := by
  induction l with
  | nil => rfl
  | cons y ys ih =>
    simp only [insert_by]
    split
    · rfl
    · rename_i hgt
      rw [with_key_swap key k x y ys (by omega), with_key_cons, ih, with_key_cons key k y]

theorem stable_insertion_sort_sorted (key : pcb → Nat) (l : List pcb) :
    (stable_insertion_sort key l).Pairwise (fun a b => key a ≤ key b) := by
  induction l with
  | nil => exact List.Pairwise.nil
  | cons x xs ih => exact insert_by_sorted key x _ ih

theorem stable_insertion_sort_with_key (key : pcb → Nat) (k : Nat) (l : List pcb) :
    with_key key k (stable_insertion_sort key l) = with_key key k l := by
  induction l with
  | nil => rfl
  | cons x xs ih =>
    simp only [stable_insertion_sort]
    rw [insert_by_with_key, with_key_cons, ih, with_key_cons]

theorem exchange_sort_eq_stable (key : pcb → Nat) (q : dlq) :
    exchange_sort key q = stable_insertion_sort key q :=
  sorted_with_key_unique key _ _ (exchange_sort_sorted key q)
    (stable_insertion_sort_sorted key q)
    (fun k => (exchange_sort_with_key key k q).trans
      (stable_insertion_sort_with_key key k q).symm)

theorem exchange_sort_of_sorted (key : pcb → Nat) (q : dlq)
    (h : q.Pairwise (fun a b => key a ≤ key b)) : exchange_sort key q = q :=
  sorted_with_key_unique key _ _ (exchange_sort_sorted key q) h
    (fun k => exchange_sort_with_key key k q)

/-- C13: for every queue, `sort_by_timetocompletion` leaves a permutation of
the same jobs in ascending order of remaining time and `sort_by_arrival_time` a
permutation in ascending order of arrival time; the `n - 1` full passes made by
the code are enough. -/
theorem C13_exchange_sorts_sort (q : dlq) :
    (sort_by_timetocompletion q).Perm q ∧
    (sort_by_timetocompletion q).Pairwise (fun a b => a.ptimeleft ≤ b.ptimeleft) ∧
    (sort_by_arrival_time q).Perm q ∧
    (sort_by_arrival_time q).Pairwise (fun a b => a.ptimearrival ≤ b.ptimearrival) :=
  ⟨sort_by_timetocompletion_perm q, sort_by_timetocompletion_sorted q,
   by rw [sort_by_arrival_time_eq]; exact exchange_sort_perm _ q,
   sort_by_arrival_time_sorted q⟩

/-- C14: applying `sort_by_timetocompletion` twice gives the same job sequence as
applying it once, and on a queue already in ascending order of remaining time it
changes nothing, jobs of equal remaining time included. -/
theorem C14_sort_idempotent (q : dlq) :
    sort_by_timetocompletion (sort_by_timetocompletion q) = sort_by_timetocompletion q ∧
    (q.Pairwise (fun a b => a.ptimeleft ≤ b.ptimeleft) → sort_by_timetocompletion q = q) := by
  have hfix : ∀ l : dlq, l.Pairwise (fun a b => a.ptimeleft ≤ b.ptimeleft) →
      sort_by_timetocompletion l = l := by
    intro l hl
    rw [sort_by_timetocompletion_eq]
    exact exchange_sort_of_sorted pcb.ptimeleft l hl
  exact ⟨hfix _ (sort_by_timetocompletion_sorted q), hfix q⟩

/-- Witness for C14: a sorted queue with two jobs of equal remaining time is left as it is. -/
theorem C14_sort_idempotent_witness :
    sort_by_timetocompletion
        [tokenize_pdata "X" 1 2 0, tokenize_pdata "Y" 2 2 0, tokenize_pdata "Z" 3 3 0]
      = [tokenize_pdata "X" 1 2 0, tokenize_pdata "Y" 2 2 0, tokenize_pdata "Z" 3 3 0] :=
  (C14_sort_idempotent
    [tokenize_pdata "X" 1 2 0, tokenize_pdata "Y" 2 2 0, tokenize_pdata "Z" 3 3 0]).2
    (by decide)

/-- C19: both exchange sorts are stable (the jobs with any given key value keep
their head-to-tail order) and compute exactly the stable insertion sort of the
queue by the key. -/
theorem C19_sorts_stable (q : dlq) :
    (∀ k, with_key pcb.ptimeleft k (sort_by_timetocompletion q) = with_key pcb.ptimeleft k q) ∧
    (∀ k, with_key pcb.ptimearrival k (sort_by_arrival_time q)
      = with_key pcb.ptimearrival k q) ∧
    sort_by_timetocompletion q = stable_insertion_sort pcb.ptimeleft q ∧
    sort_by_arrival_time q = stable_insertion_sort pcb.ptimearrival q := by
  refine ⟨fun k => ?_, fun k => ?_, ?_, ?_⟩
  · rw [sort_by_timetocompletion_eq]; exact exchange_sort_with_key _ k q
  · rw [sort_by_arrival_time_eq]; exact exchange_sort_with_key _ k q
  · rw [sort_by_timetocompletion_eq]; exact exchange_sort_eq_stable _ q
  · rw [sort_by_arrival_time_eq]; exact exchange_sort_eq_stable _ q

/-! ### `remove_from_head` on the linked representation -/

/-- Counterexample to C16 as stated: on the empty queue (both pointers `NULL`)
`remove_from_head` does not take the `exit(1)` path. -/
theorem C16_counterexample :
    ¬ ∃ msg, remove_from_head_nodes (fun _ => { pfwd := none, pbck := none, data := jobA })
        { head := none, tail := none } = Call.exit1 msg := by
  rintro ⟨msg, h⟩
  simp [remove_from_head_nodes] at h

/-- C16 (amended): on an empty queue (head and tail both `NULL`)
`remove_from_head` returns `NULL` to the caller and leaves header and nodes as
they are (in the list reading: no job, empty queue); among the calls with a
`NULL` head, the `exit(1)` path is taken exactly when the tail is not `NULL`. -/
theorem C16_pop_empty_returns_null (mem : Nat → dlq_node) (tail : Option Nat) :
    remove_from_head_nodes mem { head := none, tail := none }
      = Call.ret (none, { head := none, tail := none }, mem) ∧
    remove_from_head [] = (none, []) ∧
    ((∃ msg, remove_from_head_nodes mem { head := none, tail := tail } = Call.exit1 msg)
      ↔ tail ≠ none) ∧
    remove_from_head_nodes mem { head := none, tail := tail }
      = (match tail with
         | none => Call.ret (none, { head := none, tail := none }, mem)
         | some _ => Call.exit1 "DLList inconsitent.") := by
  refine ⟨rfl, rfl, ?_, ?_⟩
  · cases tail with
    | none => simp [remove_from_head_nodes]
    | some t => simp [remove_from_head_nodes]
  · cases tail <;> rfl

/-! ### First-run bookkeeping under FIFO -/

/-- C17 (code evaluated at the failing input): FIFO on the single job L(1,2)
from counter 0.  The job is idle at ticks 1 and 2 and first executes at tick 3,
but the first-run bookkeeping is done at tick 1, while it is idle:
`pfirstinstanceruntime` is 1 and the response time added is `MAX(0, 1 - 2) = 0`,
where the first execution is at tick 3 with `MAX(0, 3 - 2) = 1`. -/
theorem C17_first_run_recorded_while_idle :
    (sched_FIFO 4 [lateJob] 0).map (fun r => (r.1.response_time,
        r.2.map (fun l => (l.tick, l.running.map
          (fun p => (p.pname, p.ptimeleft, p.pfirstinstanceruntime)))))) 
      = some (0, [(1, none), (2, none), (3, some ("L", 0, 1))])
    ∧ (run_state Policy.FIFO [lateJob] 0 1).map
        (fun s => (s.proc.isfirstinstancetime, s.proc.pfirstinstanceruntime, s.proc.ptimeleft,
                   s.response_time)) = some (0, 1, 1, 0)
    ∧ MAX 0 (3 - 2) = 1 :=
  ⟨rfl, rfl, rfl⟩

/-! ### Ready-queue order under FIFO and SJF -/

theorem complete_q (s : Sched) :
    (complete s).q = if s.proc.ptimeleft = 0 then s.q.tail else s.q := by
  unfold complete
  split
  · cases hq : s.q <;> simp [hq, is_empty, remove_from_head]
  · rfl

theorem complete_proc_eq (s : Sched) :
    (complete s).proc = if s.proc.ptimeleft = 0 then (s.q.head?).getD s.proc else s.proc := by
  unfold complete
  split
  · cases hq : s.q <;> simp [hq, is_empty, remove_from_head]
  · rfl

@[simp]
theorem execute_q (s : Sched) : (execute s).1.q = s.q := by
  unfold execute
  simp only []
  split <;> rfl

@[simp]
theorem execute_p_time (s : Sched) : (execute s).1.p_time = s.p_time := by
  unfold execute
  simp only []
  split <;> rfl

@[simp]
theorem execute_p_fq (s : Sched) : (execute s).1.p_fq = s.p_fq := by
  unfold execute
  simp only []
  split <;> rfl

theorem FIFO_admission_q (s : Sched) : (FIFO_admission (advance s)).q = s.q ++ admitted s := by
  unfold FIFO_admission admitted
  cases hp : s.p_fq with
  | nil => simp [advance, hp]
  | cons head rest =>
    by_cases h : head.ptimearrival < s.p_time + 1 <;>
      simp [advance, hp, h, remove_from_head, add_to_tail]

/-- C12: FIFO never reorders the ready queue.  After a tick the ready queue is
the queue before the tick with the job admitted at this tick (if any) appended
at the tail and, if the running job has remaining time 0 after the execution
step, without its head, which becomes the running job; so it is a final
segment of the old queue plus admission, the jobs keep their relative order and
leave in the order in which they were appended. -/
theorem C12_fifo_keeps_queue_order (s s1 : Sched) (line : TraceLine)
    (ht : FIFO_tick s = Outcome.cont s1 line) :
    line.ready = s.q ++ admitted s ∧
    s1.q = (if (FIFO_ran s).proc.ptimeleft = 0 then (s.q ++ admitted s).tail
            else s.q ++ admitted s) ∧
    s1.proc = (if (FIFO_ran s).proc.ptimeleft = 0
               then ((s.q ++ admitted s).head?).getD (FIFO_ran s).proc
               else (FIFO_ran s).proc) ∧
    s1.q <:+ s.q ++ admitted s := by
  obtain ⟨_, rfl, _, _, hready⟩ := FIFO_tick_cont s s1 line ht
  have hq : (FIFO_ran s).q = s.q ++ admitted s := by
    simp [FIFO_ran, FIFO_admission_q]
  have h1 : (complete (FIFO_ran s)).q
      = if (FIFO_ran s).proc.ptimeleft = 0 then (s.q ++ admitted s).tail
        else s.q ++ admitted s := by
    rw [complete_q, hq]
  refine ⟨by rw [hready]; exact hq, h1, by rw [← hq]; exact complete_proc_eq _, ?_⟩
  show (complete (FIFO_ran s)).q <:+ s.q ++ admitted s
  rw [h1]
  split
  · exact List.tail_suffix _
  · exact List.suffix_refl _

/-- Witness for C12: tick 4 of the FIFO run on A(4,0), B(2,1), where A completes
and B leaves the ready queue. -/
theorem C12_fifo_keeps_queue_order_witness :
    run_state Policy.FIFO [jobA, jobB] 0 3 = some fifo_state3 ∧
    (fifo_line4.ready = fifo_state3.q ++ admitted fifo_state3 ∧
     fifo_state4.q = (if (FIFO_ran fifo_state3).proc.ptimeleft = 0
       then (fifo_state3.q ++ admitted fifo_state3).tail
       else fifo_state3.q ++ admitted fifo_state3) ∧
     fifo_state4.proc = (if (FIFO_ran fifo_state3).proc.ptimeleft = 0
       then ((fifo_state3.q ++ admitted fifo_state3).head?).getD (FIFO_ran fifo_state3).proc
       else (FIFO_ran fifo_state3).proc) ∧
     fifo_state4.q <:+ fifo_state3.q ++ admitted fifo_state3) :=
  ⟨rfl, C12_fifo_keeps_queue_order fifo_state3 fifo_state4 fifo_line4 rfl⟩

theorem SJF_admission_sorted (s : Sched) (h : SortedQ s) : SortedQ (SJF_admission s) := by
  unfold SJF_admission SortedQ
  split
  · exact h
  · split
    · exact sort_by_timetocompletion_sorted _
    · exact h

theorem SJF_ran_sorted (s : Sched) (h : SortedQ s) : SortedQ (SJF_ran s) := by
  have := SJF_admission_sorted (advance s) h
  unfold SortedQ at this ⊢
  simpa [SJF_ran] using this

theorem complete_sorted (s : Sched) (h : SortedQ s) : SortedQ (complete s) := by
  unfold SortedQ at h ⊢
  rw [complete_q]
  split
  · exact h.sublist (List.tail_sublist _)
  · exact h

theorem SJF_tick_sorted (s s1 : Sched) (line : TraceLine) (h : SortedQ s)
    (ht : SJF_tick s = Outcome.cont s1 line) : SortedQ s1 := by
  obtain ⟨_, rfl, _⟩ := SJF_tick_cont s s1 line ht
  exact complete_sorted _ (SJF_ran_sorted s h)

theorem SJF_ran_pid (s : Sched) : (SJF_ran s).proc.pid = s.proc.pid := by
  unfold SJF_ran execute first_run
  simp only []
  split <;> split <;> simp [dec_timeleft]

/-- C18: SJF picks the shortest ready job.  In every run of `sched_SJF` the ready
queue is in ascending order of remaining time after the execution step and at
the end of every tick; the running job (the same job as before the tick) keeps
the slot unless its remaining time is 0 after the execution step, and when it is
0 and the ready queue is not empty, the head is promoted and has remaining time
`≤` that of every job left in the ready queue. -/
theorem C18_sjf_picks_shortest (p_fq : dlq) (p_time n : Nat) (s s1 : Sched) (line : TraceLine)
    (hs : run_state Policy.SJF p_fq p_time n = some s)
    (ht : tick Policy.SJF s = Outcome.cont s1 line) :
    (SJF_ran s).q.Pairwise (fun a b => a.ptimeleft ≤ b.ptimeleft) ∧
    s1.q.Pairwise (fun a b => a.ptimeleft ≤ b.ptimeleft) ∧
    (SJF_ran s).proc.pid = s.proc.pid ∧
    ((SJF_ran s).proc.ptimeleft ≠ 0 → s1.proc = (SJF_ran s).proc ∧ s1.q = (SJF_ran s).q) ∧
    ((SJF_ran s).proc.ptimeleft = 0 → ∀ head rest, (SJF_ran s).q = head :: rest →
      s1.proc = head ∧ s1.q = rest ∧ ∀ j ∈ s1.q, s1.proc.ptimeleft ≤ j.ptimeleft) := by
  obtain ⟨s0, hi, hn⟩ := run_state_some _ _ _ _ _ hs
  obtain ⟨proc, rest, _, h0⟩ := sched_init_some _ _ _ hi
  have hsorted0 : SortedQ s0 := by subst h0; exact List.Pairwise.nil
  have hsorted : SortedQ s :=
    state_after_invariant Policy.SJF SortedQ (fun a b l ha hab => SJF_tick_sorted a b l ha hab)
      n s0 s hsorted0 hn
  have hran := SJF_ran_sorted s hsorted
  obtain ⟨_, hs1, _⟩ := SJF_tick_cont s s1 line ht
  have hs1 : s1 = complete (SJF_ran s) := hs1
  refine ⟨hran, ?_, SJF_ran_pid s, ?_, ?_⟩
  · rw [hs1]; exact complete_sorted _ hran
  · intro hne
    rw [hs1, complete_proc_eq, complete_q]
    simp [hne]
  · intro hz head tl hq
    rw [hs1, complete_proc_eq, complete_q]
    simp only [hz, if_true, hq, List.head?_cons, Option.getD_some, List.tail_cons, true_and]
    unfold SortedQ at hran
    rw [hq] at hran
    exact fun j hj => List.rel_of_pairwise_cons hran hj

/-- Witness for C18: tick 2 of the SJF run on P(2,0), Q(3,0), R(1,0); P completes
and R, not the earlier admitted Q, is promoted. -/
theorem C18_sjf_picks_shortest_witness :
    run_state Policy.SJF sjf_jobs 0 1 = some sjf_state1 ∧
    tick Policy.SJF sjf_state1 = Outcome.cont sjf_state2 sjf_line2 ∧
    (sjf_state2.proc = tokenize_pdata "R" 3 1 0 ∧ sjf_state2.q = [tokenize_pdata "Q" 2 3 0] ∧
      ∀ j ∈ sjf_state2.q, sjf_state2.proc.ptimeleft ≤ j.ptimeleft) :=
  ⟨rfl, rfl,
    (C18_sjf_picks_shortest sjf_jobs 0 1 sjf_state1 sjf_state2 sjf_line2 rfl rfl).2.2.2.2 rfl
      (tokenize_pdata "R" 3 1 0) [tokenize_pdata "Q" 2 3 0] rfl⟩

/-! ### The counter at the end of a run -/

@[simp]
theorem FIFO_admission_first_arrival (s : Sched) : (FIFO_admission s).first_arrival = s.first_arrival := by
  unfold FIFO_admission
  repeat' (first | rfl | split)

@[simp]
theorem SJF_admission_first_arrival (s : Sched) : (SJF_admission s).first_arrival = s.first_arrival := by
  unfold SJF_admission
  repeat' (first | rfl | split)

@[simp]
theorem STCF_admission_first_arrival (s : Sched) : (STCF_admission s).first_arrival = s.first_arrival := by
  unfold STCF_admission
  repeat' (first | rfl | split)

@[simp]
theorem RR_admission_first_arrival (s : Sched) : (RR_admission s).first_arrival = s.first_arrival := by
  unfold RR_admission
  repeat' (first | rfl | split)

@[simp]
theorem first_run_first_arrival (s : Sched) : (first_run s).first_arrival = s.first_arrival := by
  unfold first_run
  repeat' (first | rfl | split)

@[simp]
theorem STCF_first_run_first_arrival (s : Sched) : (STCF_first_run s).first_arrival = s.first_arrival := by
  unfold STCF_first_run
  repeat' (first | rfl | split)

@[simp]
theorem complete_first_arrival (s : Sched) : (complete s).first_arrival = s.first_arrival := by
  unfold complete
  repeat' (first | rfl | split | simp only [])

@[simp]
theorem RR_complete_first_arrival (s : Sched) : (RR_complete s).first_arrival = s.first_arrival := by
  unfold RR_complete
  repeat' (first | rfl | split | simp only [])

@[simp]
theorem RR_rotate_first_arrival (s : Sched) : (RR_rotate s).first_arrival = s.first_arrival := by
  unfold RR_rotate
  repeat' (first | rfl | split)

@[simp]
theorem STCF_preempt_first_arrival (s : Sched) : (STCF_preempt s).first_arrival = s.first_arrival := by
  unfold STCF_preempt
  repeat' (first | rfl | split)

@[simp]
theorem STCF_resort_first_arrival (s : Sched) : (STCF_resort s).first_arrival = s.first_arrival := by
  unfold STCF_resort
  repeat' (first | rfl | split)

@[simp]
theorem RR_complete_p_time (s : Sched) : (RR_complete s).p_time = s.p_time := by
  unfold RR_complete
  repeat' (first | rfl | split | simp only [])

@[simp]
theorem RR_rotate_p_time (s : Sched) : (RR_rotate s).p_time = s.p_time := by
  unfold RR_rotate
  repeat' (first | rfl | split)

@[simp]
theorem execute_first_arrival (s : Sched) : (execute s).1.first_arrival = s.first_arrival := by
  unfold execute
  simp only []
  split <;> rfl

@[simp]
theorem RR_execute_first_arrival (s : Sched) : (RR_execute s).1.first_arrival = s.first_arrival := by
  unfold RR_execute
  simp only []
  split <;> rfl

@[simp]
theorem RR_execute_p_time (s : Sched) : (RR_execute s).1.p_time = s.p_time := by
  unfold RR_execute
  simp only []
  split <;> rfl

@[simp]
theorem STCF_sorted_first_arrival (s : Sched) :
    (STCF_sorted s).first_arrival = s.first_arrival := by
  simp [STCF_sorted, advance]

@[simp]
theorem STCF_execute_first_arrival (s : Sched) :
    (STCF_execute s).1.first_arrival = s.first_arrival := by
  unfold STCF_execute
  simp only []
  split <;> simp

theorem first_run_timeleft (s : Sched) : (first_run s).proc.ptimeleft = s.proc.ptimeleft := by
  unfold first_run; split <;> rfl

theorem first_run_proc_time (s : Sched) : (first_run s).proc_time = s.proc_time := by
  unfold first_run; split <;> rfl

theorem complete_of_left (s : Sched) (h : s.proc.ptimeleft ≠ 0) : complete s = s := by
  unfold complete; simp [h]

theorem RR_complete_of_left (s : Sched) (h : s.proc.ptimeleft ≠ 0) : RR_complete s = s := by
  unfold RR_complete; simp [h]

theorem RR_rotate_of_proc_time (s : Sched) (h : s.proc_time = 0) : RR_rotate s = s := by
  unfold RR_rotate; simp [h, time_slice]

theorem execute_idle (s : Sched) (h : s.p_time ≤ s.proc.ptimearrival) : execute s = (s, none) := by
  unfold execute; simp [Nat.not_lt.2 h]

theorem RR_execute_idle (s : Sched) (h : s.p_time ≤ s.proc.ptimearrival) :
    RR_execute s = (s, none) := by
  unfold RR_execute; simp [Nat.not_lt.2 h]

theorem STCF_execute_idle (s : Sched) (h : s.p_time + 1 ≤ s.proc.ptimearrival) :
    STCF_execute s = (STCF_sorted s, none) := by
  unfold STCF_execute
  have : ¬ s.proc.ptimearrival < s.p_time + 1 := by omega
  simp [this]

theorem RR_admission_proc_time (s : Sched) : (RR_admission s).proc_time = s.proc_time := by
  unfold RR_admission
  repeat' (first | rfl | split)

theorem STCF_sorted_proc_time (s : Sched) : (STCF_sorted s).proc_time = s.proc_time := by
  unfold STCF_sorted STCF_admission
  simp only [advance]
  repeat' (first | rfl | split)

theorem STCF_resort_proc_time (s : Sched) : (STCF_resort s).proc_time = s.proc_time := by
  unfold STCF_resort
  repeat' (first | rfl | split)

theorem FIFO_admission_proc_time (s : Sched) : (FIFO_admission s).proc_time = s.proc_time := by
  unfold FIFO_admission
  repeat' (first | rfl | split)

theorem SJF_admission_proc_time (s : Sched) : (SJF_admission s).proc_time = s.proc_time := by
  unfold SJF_admission
  repeat' (first | rfl | split)

@[simp]
theorem advance_first_arrival (s : Sched) : (advance s).first_arrival = s.first_arrival := rfl

@[simp]
theorem advance_proc_time (s : Sched) : (advance s).proc_time = s.proc_time := rfl

theorem loop_break_timeleft (s : Sched) (h : loop_break s = true) : s.proc.ptimeleft = 0 := by
  unfold loop_break at h
  simp only [Bool.and_eq_true, beq_iff_eq] at h
  exact h.2.2

theorem tick_halt (pol : Policy) (s s1 : Sched) (h : tick pol s = Outcome.halt s1) :
    s1 = advance s ∧ s.proc.ptimeleft = 0 := by
  cases pol
  all_goals
    simp only [tick, FIFO_tick, SJF_tick, STCF_tick, RR_tick] at h
    split at h
    · rename_i hb
      injection h with h
      exact ⟨h.symm, by simpa using loop_break_timeleft _ hb⟩
    · cases h

theorem StartInv_of_lt (s s1 : Sched) (h : StartInv s) (hfa : s1.first_arrival = s.first_arrival)
    (ht : s1.p_time = s.p_time + 1) (hlt : s.proc.ptimearrival < s.p_time + 1) : StartInv s1 := by
  left
  rw [hfa, ht]
  push_cast
  rcases h with h | ⟨h, _, _⟩
  · omega
  · omega

theorem StartInv_step (s s1 : Sched) (h : StartInv s) (hfa : s1.first_arrival = s.first_arrival)
    (ht : s1.p_time = s.p_time + 1)
    (hidle : s.p_time + 1 ≤ s.proc.ptimearrival → 1 ≤ s.proc.ptimeleft → s.proc_time = 0 →
      s1.proc.ptimearrival = s.proc.ptimearrival ∧ s1.proc.ptimeleft = s.proc.ptimeleft ∧
      s1.proc_time = 0) : StartInv s1 := by
  by_cases hlt : s.proc.ptimearrival < s.p_time + 1
  · exact StartInv_of_lt s s1 h hfa ht hlt
  · rcases h with h | ⟨h1, h2, h3⟩
    · left
      rw [hfa, ht]
      push_cast
      omega
    · obtain ⟨ha, hl, hp⟩ := hidle (by omega) h2 h3
      right
      rw [ha, hl, hp, hfa]
      exact ⟨h1, h2, rfl⟩

theorem tick_StartInv (pol : Policy) (s s1 : Sched) (line : TraceLine) (h : StartInv s)
    (ht : tick pol s = Outcome.cont s1 line) : StartInv s1 := by
  cases pol with
  | FIFO =>
    obtain ⟨_, rfl, _⟩ := FIFO_tick_cont s s1 line ht
    refine StartInv_step s _ h (by simp) (by simp) ?_
    intro hidle hleft hpt
    rw [execute_idle _ (by simpa using hidle)]
    rw [complete_of_left _ (by simp only [first_run_timeleft, FIFO_admission_proc, advance_proc]; omega)]
    simp [first_run_timeleft, first_run_proc_time, FIFO_admission_proc_time, advance, hpt]
  | SJF =>
    obtain ⟨_, rfl, _⟩ := SJF_tick_cont s s1 line ht
    refine StartInv_step s _ h (by simp) (by simp) ?_
    intro hidle hleft hpt
    rw [execute_idle _ (by simpa using hidle)]
    rw [complete_of_left _ (by simp only [first_run_timeleft, SJF_admission_proc, advance_proc]; omega)]
    simp [first_run_timeleft, first_run_proc_time, SJF_admission_proc_time, advance, hpt]
  | STCF =>
    obtain ⟨_, rfl, _⟩ := STCF_tick_cont s s1 line ht
    refine StartInv_step s _ h (by simp) (by simp) ?_
    intro hidle hleft hpt
    rw [STCF_execute_idle _ hidle]
    rw [complete_of_left _ (by simp only [STCF_resort_proc, STCF_sorted_proc]; omega)]
    simp [STCF_resort_proc_time, STCF_sorted_proc_time, hpt]
  | RR =>
    obtain ⟨_, rfl, _⟩ := RR_tick_cont s s1 line ht
    refine StartInv_step s _ h (by simp) (by simp) ?_
    intro hidle hleft hpt
    rw [RR_execute_idle _ (by simpa using hidle)]
    rw [RR_complete_of_left _ (by simp only [first_run_timeleft, RR_admission_proc, advance_proc]; omega)]
    rw [RR_rotate_of_proc_time _ (by simp [first_run_proc_time, RR_admission_proc_time, advance, hpt])]
    simp [first_run_timeleft, first_run_proc_time, RR_admission_proc_time, advance, hpt]

/-- A run that ends has reached the `break` from some state at the top of the loop. -/
theorem run_loop_some (pol : Policy) (fuel : Nat) :
    ∀ (s0 s1 : Sched) (acc trace : List TraceLine),
      run_loop pol fuel s0 acc = some (s1, trace) →
      ∃ n s, state_after pol n s0 = some s ∧ tick pol s = Outcome.halt s1 := by
  induction fuel with
  | zero => intro s0 s1 acc trace h; simp [run_loop] at h
  | succ k ih =>
    intro s0 s1 acc trace h
    unfold run_loop at h
    split at h
    · rename_i s2 hs2
      simp only [Option.some.injEq, Prod.mk.injEq] at h
      exact ⟨0, s0, rfl, by rw [hs2, h.1]⟩
    · rename_i s2 line hs2
      obtain ⟨n, s, hn, hh⟩ := ih s2 s1 _ trace h
      exact ⟨n + 1, s, by rw [state_after, hs2]; exact hn, hh⟩

theorem halt_after_first_arrival (pol : Policy) (p_fq : dlq) (p_time n : Nat) (s s1 : Sched)
    (hleft : ∀ j ∈ p_fq, 1 ≤ j.ptimeleft)
    (hs : run_state pol p_fq p_time n = some s) (ht : tick pol s = Outcome.halt s1) :
    s1.first_arrival < (s1.p_time : Int) := by
  obtain ⟨s0, hi, hn⟩ := run_state_some _ _ _ _ _ hs
  obtain ⟨proc, rest, hfq, h0⟩ := sched_init_some _ _ _ hi
  have hinv0 : StartInv s0 := by
    subst h0
    exact Or.inr ⟨rfl, hleft proc (by rw [hfq]; exact List.mem_cons_self _ _), rfl⟩
  have hinv : StartInv s :=
    state_after_invariant pol StartInv (fun a b l ha hab => tick_StartInv pol a b l ha hab)
      n s0 s hinv0 hn
  obtain ⟨rfl, hz⟩ := tick_halt pol s s1 ht
  simp only [advance_first_arrival, advance_p_time]
  push_cast
  rcases hinv with h | ⟨_, h, _⟩
  · omega
  · omega

theorem sched_some (pol : Policy) (fuel : Nat) (p_fq : dlq) (p_time : Nat) (m : Metrics)
    (trace : List TraceLine) (h : sched pol fuel p_fq p_time = some (m, trace)) :
    ∃ n s s1, run_state pol p_fq p_time n = some s ∧ tick pol s = Outcome.halt s1 ∧
      m = metrics_of s1 := by
  unfold sched at h
  cases hi : sched_init p_fq p_time with
  | none => simp [hi] at h
  | some s0 =>
    simp only [hi] at h
    cases hr : run_loop pol fuel s0 [] with
    | none => simp [hr] at h
    | some r =>
      obtain ⟨s1, tr⟩ := r
      simp only [hr, Option.some.injEq, Prod.mk.injEq] at h
      obtain ⟨n, s, hn, hh⟩ := run_loop_some pol fuel s0 s1 [] tr hr
      exact ⟨n, s, s1, by simp [run_state, hi, hn], hh, h.1.symm⟩

/-! ### Round robin -/

theorem RR_admission_q (s : Sched) : (RR_admission (advance s)).q = s.q ++ admitted s := by
  unfold RR_admission admitted
  cases hp : s.p_fq with
  | nil => simp [advance, hp]
  | cons head rest =>
    by_cases h : head.ptimearrival < s.p_time + 1 <;>
      simp [advance, hp, h, remove_from_head, add_to_tail]

theorem admitted_arrived (s : Sched) (j : pcb) (hj : j ∈ admitted s) :
    j.ptimearrival < s.p_time + 1 := by
  unfold admitted at hj
  split at hj
  · simp at hj
  · split at hj
    · rename_i h
      simp only [List.mem_singleton] at hj
      rw [hj]; exact h
    · simp at hj

@[simp]
theorem RR_execute_q (s : Sched) : (RR_execute s).1.q = s.q := by
  unfold RR_execute
  simp only []
  split <;> rfl

@[simp]
theorem RR_ran_q (s : Sched) : (RR_ran s).q = s.q ++ admitted s := by
  simp [RR_ran, RR_admission_q]

@[simp]
theorem RR_ran_p_time (s : Sched) : (RR_ran s).p_time = s.p_time + 1 := by
  simp [RR_ran]

theorem RR_ran_arrived (s : Sched) (h : Arrived s) : Arrived (RR_ran s) := by
  intro j hj
  rw [RR_ran_q] at hj
  rw [RR_ran_p_time]
  rcases List.mem_append.1 hj with hj | hj
  · exact Nat.lt_succ_of_lt (h j hj)
  · exact admitted_arrived s j hj

/-- The execution step of `sched_RR` when the running job has arrived. -/
theorem RR_execute_arrived (s : Sched) (h : s.proc.ptimearrival < s.p_time) :
    RR_execute s = ({ s with proc := dec_timeleft s.proc, proc_time := s.proc_time + 1 },
      some (dec_timeleft s.proc)) := by
  unfold RR_execute; simp [h]

/-- What the execution step of `sched_RR` leaves behind, in both cases. -/
theorem RR_ran_cases (s : Sched) (hpt : s.proc_time = 0) :
    ((RR_execute (first_run (RR_admission (advance s)))).2 = none ∧ (RR_ran s).proc_time = 0) ∨
    ((RR_execute (first_run (RR_admission (advance s)))).2 = some (RR_ran s).proc ∧
      (RR_ran s).proc_time = 1 ∧ (RR_ran s).proc.ptimearrival < s.p_time + 1) := by
  by_cases h : (first_run (RR_admission (advance s))).proc.ptimearrival
      < (first_run (RR_admission (advance s))).p_time
  · right
    unfold RR_ran
    rw [RR_execute_arrived _ h]
    refine ⟨rfl, ?_, ?_⟩
    · simp [first_run_proc_time, RR_admission_proc_time, hpt]
    · simpa using h
  · left
    unfold RR_ran
    rw [RR_execute_idle _ (Nat.not_lt.1 h)]
    exact ⟨rfl, by simp [first_run_proc_time, RR_admission_proc_time, hpt]⟩

theorem RR_complete_cases (s : Sched) :
    (s.proc.ptimeleft ≠ 0 ∧ RR_complete s = s) ∨
    (s.proc.ptimeleft = 0 ∧ (RR_complete s).proc_time = 0 ∧
      (∀ j ∈ (RR_complete s).q, j ∈ s.q) ∧
      ((RR_complete s).proc = s.proc ∨ (RR_complete s).proc ∈ s.q)) := by
  by_cases h : s.proc.ptimeleft = 0
  · right
    refine ⟨h, ?_⟩
    unfold RR_complete
    cases hq : s.q with
    | nil => simp [h, hq, is_empty]
    | cons a rest =>
      simp only [h, if_true, hq, is_empty, remove_from_head, Bool.false_eq_true, if_false]
      exact ⟨trivial, fun j hj => List.mem_cons_of_mem a hj, Or.inr (List.mem_cons_self a rest)⟩
  · exact Or.inl ⟨h, RR_complete_of_left s h⟩

/-- The rotation of `sched_RR` when the quantum is used up. -/
theorem RR_rotate_of_slice (s : Sched) (h : s.proc_time = 1) :
    s.q ++ [s.proc] = (RR_rotate s).proc :: (RR_rotate s).q ∧ (RR_rotate s).proc_time = 0 ∧
    (RR_rotate s).p_time = s.p_time := by
  unfold RR_rotate
  cases hq : s.q <;> simp [h, time_slice, add_to_tail, remove_from_head]

theorem RR_tick_inv (s s1 : Sched) (line : TraceLine) (h : RRInv s)
    (ht : RR_tick s = Outcome.cont s1 line) : RRInv s1 := by
  obtain ⟨_, hs1, _⟩ := RR_tick_cont s s1 line ht
  have hs1 : s1 = RR_rotate (RR_complete (RR_ran s)) := hs1
  have harr := RR_ran_arrived s h.1
  rcases RR_complete_cases (RR_ran s) with ⟨_, hc⟩ | ⟨_, hc0, hcq, _⟩
  · rw [hc] at hs1
    rcases RR_ran_cases s h.2 with ⟨_, h0⟩ | ⟨_, h1, hlt⟩
    · rw [RR_rotate_of_proc_time _ h0] at hs1
      rw [hs1]
      exact ⟨harr, h0⟩
    · obtain ⟨hrot, hpt, htime⟩ := RR_rotate_of_slice _ h1
      rw [hs1]
      refine ⟨fun j hj => ?_, hpt⟩
      rw [htime, RR_ran_p_time]
      have hj2 : j ∈ (RR_ran s).q ++ [(RR_ran s).proc] := by
        rw [hrot]; exact List.mem_cons_of_mem _ hj
      rcases List.mem_append.1 hj2 with hj2 | hj2
      · simpa using harr j hj2
      · rw [List.mem_singleton.1 hj2]; exact hlt
  · rw [RR_rotate_of_proc_time _ hc0] at hs1
    rw [hs1]
    refine ⟨fun j hj => ?_, hc0⟩
    simpa using harr j (hcq j hj)

theorem RR_tick_of_not_break (s : Sched) (h : loop_break (advance s) = false) :
    RR_tick s = Outcome.cont (RR_rotate (RR_complete (RR_ran s)))
      { tick := (RR_ran s).p_time,
        running := (RR_execute (first_run (RR_admission (advance s)))).2,
        ready := (RR_ran s).q } := by
  unfold RR_tick
  simp only [h, Bool.false_eq_true, if_false]
  rfl

theorem loop_break_of_q (s : Sched) (h : s.q ≠ []) : loop_break (advance s) = false := by
  unfold loop_break
  cases hq : s.q with
  | nil => exact absurd hq h
  | cons a rest => simp [advance, hq, is_empty]

theorem first_run_pid (s : Sched) : (first_run s).proc.pid = s.proc.pid := by
  unfold first_run; split <;> rfl

/-- C11: round-robin rotation with quantum 1.  In every run of `sched_RR`, at a
tick where the running job `p` executes and still has remaining time after it,
`p` is appended to the tail of the ready queue (as printed at that tick) and
the head of that extended queue becomes the running job; whenever the ready
queue is then non-empty, the next tick is not the end of the run and the job
that executes at it is the previous ready-queue head, which is not `p` when
their pids differ. -/
theorem C11_rr_rotation (p_fq : dlq) (p_time n : Nat) (s s1 : Sched) (line : TraceLine)
    (p : pcb) (hs : run_state Policy.RR p_fq p_time n = some s)
    (ht : tick Policy.RR s = Outcome.cont s1 line)
    (hp : line.running = some p) (hleft : p.ptimeleft ≠ 0) :
    line.ready = s.q ++ admitted s ∧
    line.ready ++ [p] = s1.proc :: s1.q ∧
    (s1.q ≠ [] → ∃ head rest s2 line2 p2, line.ready = head :: rest ∧ s1.proc = head ∧
      s1.q = rest ++ [p] ∧ tick Policy.RR s1 = Outcome.cont s2 line2 ∧
      line2.running = some p2 ∧ p2.pid = head.pid ∧ (head.pid ≠ p.pid → p2.pid ≠ p.pid)) := by
  obtain ⟨s0, hi, hn⟩ := run_state_some _ _ _ _ _ hs
  obtain ⟨proc, rest0, _, h0⟩ := sched_init_some _ _ _ hi
  have hinv0 : RRInv s0 := by
    subst h0
    exact ⟨fun j hj => by simp at hj, rfl⟩
  have hinv : RRInv s :=
    state_after_invariant Policy.RR RRInv (fun a b l ha hab => RR_tick_inv a b l ha hab)
      n s0 s hinv0 hn
  obtain ⟨_, hs1, hrun, _, hready⟩ := RR_tick_cont s s1 line ht
  have hs1 : s1 = RR_rotate (RR_complete (RR_ran s)) := hs1
  have hready : line.ready = (RR_ran s).q := hready
  rw [hrun] at hp
  have hran : (RR_ran s).proc = p ∧ (RR_ran s).proc_time = 1 := by
    rcases RR_ran_cases s hinv.2 with ⟨hnone, _⟩ | ⟨hsome, h1, _⟩
    · rw [hnone] at hp; cases hp
    · rw [hsome] at hp
      exact ⟨Option.some.inj hp, h1⟩
  have hcomp : RR_complete (RR_ran s) = RR_ran s :=
    RR_complete_of_left _ (by rw [hran.1]; exact hleft)
  rw [hcomp] at hs1
  obtain ⟨hrot, _, htime⟩ := RR_rotate_of_slice _ hran.2
  rw [← hs1, hran.1, ← hready] at hrot
  have htime1 : s1.p_time = s.p_time + 1 := by rw [hs1, htime, RR_ran_p_time]
  refine ⟨by rw [hready, RR_ran_q], hrot, ?_⟩
  intro hne
  cases hl : line.ready with
  | nil =>
    rw [hl] at hrot
    simp only [List.nil_append, List.cons.injEq] at hrot
    exact absurd hrot.2.symm hne
  | cons head rest =>
    rw [hl] at hrot
    simp only [List.cons_append, List.cons.injEq] at hrot
    have harr : head.ptimearrival < s.p_time + 1 := by
      have := RR_ran_arrived s hinv.1 head (by rw [← hready, hl]; exact List.mem_cons_self _ _)
      simpa using this
    have hex := RR_execute_arrived (first_run (RR_admission (advance s1)))
      (by simp only [first_run_arrival, first_run_p_time, RR_admission_proc, RR_admission_p_time,
            advance_proc, advance_p_time]
          rw [← hrot.1, htime1]; omega)
    have hpid : (dec_timeleft (first_run (RR_admission (advance s1))).proc).pid = head.pid := by
      show (first_run (RR_admission (advance s1))).proc.pid = head.pid
      rw [first_run_pid, RR_admission_proc, advance_proc, ← hrot.1]
    refine ⟨head, rest, _, _, _, rfl, hrot.1.symm, hrot.2.symm,
      RR_tick_of_not_break s1 (loop_break_of_q s1 hne), ?_, hpid, fun hd => ?_⟩
    · show (RR_execute (first_run (RR_admission (advance s1)))).2 = _
      rw [hex]
    · rw [hpid]; exact hd

/-- Witness for C11: tick 2 of the RR run on A(4,0), B(2,1); A runs, is rotated
behind B, and B is the running job afterwards. -/
theorem C11_rr_rotation_witness :
    rr_line2.ready = rr_state1.q ++ admitted rr_state1 ∧
    rr_line2.ready ++ [{ pid := 1, pname := "A", ptimeleft := 2, ptimearrival := 0,
                         isfirstinstancetime := 0, pfirstinstanceruntime := 1 }]
      = rr_state2.proc :: rr_state2.q :=
  ⟨(C11_rr_rotation [jobA, jobB] 0 1 rr_state1 rr_state2 rr_line2 _ rfl rfl rfl
      (by decide)).1,
   (C11_rr_rotation [jobA, jobB] 0 1 rr_state1 rr_state2 rr_line2 _ rfl rfl rfl
      (by decide)).2.1⟩

/-! ### Exclusive residence -/

theorem bag_eq (s : Sched) :
    bag s = ((s.p_fq.map pcb.pid : List Nat) : Multiset Nat)
      + ((s.q.map pcb.pid : List Nat) : Multiset Nat) + {s.proc.pid} := by
  simp only [bag, ids, List.map_append, List.map_cons, List.map_nil, ← Multiset.coe_add,
    Multiset.coe_singleton]

theorem bag_sort (q : dlq) :
    (((sort_by_timetocompletion q).map pcb.pid : List Nat) : Multiset Nat)
      = ((q.map pcb.pid : List Nat) : Multiset Nat) :=
  Multiset.coe_eq_coe.2 ((sort_by_timetocompletion_perm q).map pcb.pid)

theorem bag_advance (s : Sched) : bag (advance s) = bag s := rfl

theorem bag_FIFO_admission (s : Sched) : bag (FIFO_admission s) = bag s := by
  unfold FIFO_admission
  split
  · rfl
  · rename_i head rest hp
    split
    · simp only [bag_eq, hp, remove_from_head, add_to_tail, List.map_append, List.map_cons,
        List.map_nil, ← Multiset.coe_add, ← Multiset.cons_coe, ← Multiset.singleton_add,
        Multiset.coe_singleton]
      abel
    · rfl

theorem bag_SJF_admission (s : Sched) : bag (SJF_admission s) = bag s := by
  unfold SJF_admission
  split
  · rfl
  · rename_i head rest hp
    split
    · simp only [bag_eq, hp, remove_from_head, add_to_tail, bag_sort, List.map_append,
        List.map_cons, List.map_nil, ← Multiset.coe_add, ← Multiset.cons_coe,
        ← Multiset.singleton_add, Multiset.coe_singleton]
      abel
    · rfl

theorem bag_STCF_admission (s : Sched) : bag (STCF_admission s) = bag s := by
  unfold STCF_admission
  split
  · rfl
  · rename_i head rest hp
    split
    · simp only [bag_eq, hp, remove_from_head, add_to_tail, bag_sort, List.map_append,
        List.map_cons, List.map_nil, ← Multiset.coe_add, ← Multiset.cons_coe,
        ← Multiset.singleton_add, Multiset.coe_singleton]
      abel
    · rfl

theorem bag_RR_admission (s : Sched) : bag (RR_admission s) = bag s := by
  unfold RR_admission
  split
  · rfl
  · rename_i head rest hp
    split
    · simp only [bag_eq, hp, remove_from_head, add_to_tail, bag_sort, List.map_append,
        List.map_cons, List.map_nil, ← Multiset.coe_add, ← Multiset.cons_coe,
        ← Multiset.singleton_add, Multiset.coe_singleton]
      abel
    · rfl

theorem bag_first_run (s : Sched) : bag (first_run s) = bag s := by
  unfold first_run
  split
  · simp only [bag_eq]
  · rfl

theorem bag_STCF_first_run (s : Sched) : bag (STCF_first_run s) = bag s := by
  unfold STCF_first_run
  split
  · simp only [bag_eq]
  · rfl

theorem bag_execute (s : Sched) : bag (execute s).1 = bag s := by
  unfold execute
  simp only []
  split
  · simp only [bag_eq, dec_timeleft]
  · rfl

theorem bag_RR_execute (s : Sched) : bag (RR_execute s).1 = bag s := by
  unfold RR_execute
  simp only []
  split
  · simp only [bag_eq, dec_timeleft]
  · rfl

theorem bag_STCF_preempt (s : Sched) : bag (STCF_preempt s) = bag s := by
  unfold STCF_preempt
  split
  · rfl
  · rename_i head rest hq
    split
    · simp only [bag_eq, hq, remove_from_head, add_to_tail, List.cons_append, List.map_append,
        List.map_cons, List.map_nil, ← Multiset.coe_add, ← Multiset.cons_coe,
        ← Multiset.singleton_add, Multiset.coe_singleton]
      abel
    · rfl

theorem bag_STCF_sorted (s : Sched) : bag (STCF_sorted s) = bag s := by
  have h := bag_STCF_admission (advance s)
  rw [bag_advance] at h
  rw [← h]
  simp only [STCF_sorted, bag_eq, bag_sort]

theorem bag_STCF_resort (s : Sched) : bag (STCF_resort s) = bag s := by
  unfold STCF_resort
  split
  · rfl
  · simp only [bag_eq, bag_sort]

theorem bag_STCF_execute (s : Sched) : bag (STCF_execute s).1 = bag s := by
  unfold STCF_execute
  simp only []
  split
  · have h := bag_STCF_first_run (STCF_preempt (STCF_sorted s))
    rw [bag_STCF_preempt, bag_STCF_sorted] at h
    rw [← h]
    simp only [bag_eq, dec_timeleft]
  · exact bag_STCF_sorted s

theorem bag_RR_rotate (s : Sched) : bag (RR_rotate s) = bag s := by
  unfold RR_rotate
  split
  · cases hq : s.q with
    | nil => simp only [bag_eq, hq, add_to_tail, remove_from_head, List.nil_append]
    | cons head rest =>
      simp only [bag_eq, hq, remove_from_head, add_to_tail, List.cons_append, List.map_append,
        List.map_cons, List.map_nil, ← Multiset.coe_add, ← Multiset.cons_coe,
        ← Multiset.singleton_add, Multiset.coe_singleton]
      abel
  · rfl

/-- Completion handling either keeps every job or drops the running job, whose
remaining time is then 0. -/
theorem bag_complete (s : Sched) :
    bag (complete s) = bag s ∨
      (s.proc.ptimeleft = 0 ∧ s.proc.pid ::ₘ bag (complete s) = bag s) := by
  unfold complete
  split
  · rename_i hz
    cases hq : s.q with
    | nil =>
      left
      simp only [bag_eq, hq, is_empty, if_true]
    | cons head rest =>
      right
      refine ⟨hz, ?_⟩
      simp only [bag_eq, hq, is_empty, remove_from_head, Bool.false_eq_true, if_false,
        List.map_cons, ← Multiset.cons_coe, ← Multiset.singleton_add]
      abel
  · exact Or.inl rfl

theorem bag_RR_complete (s : Sched) :
    bag (RR_complete s) = bag s ∨
      (s.proc.ptimeleft = 0 ∧ s.proc.pid ::ₘ bag (RR_complete s) = bag s) := by
  unfold RR_complete
  split
  · rename_i hz
    cases hq : s.q with
    | nil =>
      left
      simp only [bag_eq, hq, is_empty, if_true]
    | cons head rest =>
      right
      refine ⟨hz, ?_⟩
      simp only [bag_eq, hq, is_empty, remove_from_head, Bool.false_eq_true, if_false,
        List.map_cons, ← Multiset.cons_coe, ← Multiset.singleton_add]
      abel
  · exact Or.inl rfl

theorem bag_at_completion (pol : Policy) (s : Sched) : bag (at_completion pol s) = bag s := by
  cases pol with
  | FIFO =>
    show bag (execute (first_run (FIFO_admission (advance s)))).1 = bag s
    rw [bag_execute, bag_first_run, bag_FIFO_admission, bag_advance]
  | SJF =>
    show bag (execute (first_run (SJF_admission (advance s)))).1 = bag s
    rw [bag_execute, bag_first_run, bag_SJF_admission, bag_advance]
  | STCF =>
    show bag (STCF_resort (STCF_execute s).1) = bag s
    rw [bag_STCF_resort, bag_STCF_execute]
  | RR =>
    show bag (RR_execute (first_run (RR_admission (advance s)))).1 = bag s
    rw [bag_RR_execute, bag_first_run, bag_RR_admission, bag_advance]

theorem bag_tick (pol : Policy) (s s1 : Sched) (line : TraceLine)
    (ht : tick pol s = Outcome.cont s1 line) :
    bag s1 = bag s ∨ ((at_completion pol s).proc.ptimeleft = 0 ∧
      (at_completion pol s).proc.pid ::ₘ bag s1 = bag s) := by
  have hb := bag_at_completion pol s
  cases pol with
  | FIFO =>
    obtain ⟨_, rfl, _⟩ := FIFO_tick_cont s s1 line ht
    rw [← hb]
    exact bag_complete (FIFO_ran s)
  | SJF =>
    obtain ⟨_, rfl, _⟩ := SJF_tick_cont s s1 line ht
    rw [← hb]
    exact bag_complete (SJF_ran s)
  | STCF =>
    obtain ⟨_, rfl, _⟩ := STCF_tick_cont s s1 line ht
    rw [← hb]
    exact bag_complete (STCF_resort (STCF_execute s).1)
  | RR =>
    obtain ⟨_, rfl, _⟩ := RR_tick_cont s s1 line ht
    rw [← hb, bag_RR_rotate]
    exact bag_RR_complete (RR_ran s)

/-- C15: exclusive residence.  For each policy, a tick permutes the pids held by
the feed, the ready queue and the running slot, except that the job in the
running slot at completion handling is dropped when its remaining time is 0
and the ready queue has a head to replace it.  So if the held jobs are pairwise
distinct before the tick they are so after it, no job appears that was not
held, and every job held before is still held unless it is that completed job;
the STCF swap and the RR rotation lose nothing. -/
theorem C15_exclusive_residence (pol : Policy) (s s1 : Sched) (line : TraceLine)
    (ht : tick pol s = Outcome.cont s1 line) (hnd : (ids s).Nodup) :
    (ids s1).Nodup ∧
    ((ids s1).Perm (ids s) ∨ ((at_completion pol s).proc.ptimeleft = 0 ∧
      ((at_completion pol s).proc.pid :: ids s1).Perm (ids s))) ∧
    (∀ i ∈ ids s, i ∈ ids s1 ∨
      (i = (at_completion pol s).proc.pid ∧ (at_completion pol s).proc.ptimeleft = 0)) ∧
    (∀ i ∈ ids s1, i ∈ ids s) := by
  rcases bag_tick pol s s1 line ht with h | ⟨hz, h⟩
  · have hperm : (ids s1).Perm (ids s) := Multiset.coe_eq_coe.1 h
    exact ⟨hperm.nodup_iff.2 hnd, Or.inl hperm, fun i hi => Or.inl (hperm.mem_iff.2 hi),
      fun i hi => hperm.mem_iff.1 hi⟩
  · have hperm : ((at_completion pol s).proc.pid :: ids s1).Perm (ids s) :=
      Multiset.coe_eq_coe.1 (by rw [← Multiset.cons_coe]; exact h)
    refine ⟨(hperm.nodup_iff.2 hnd).of_cons, Or.inr ⟨hz, hperm⟩, fun i hi => ?_,
      fun i hi => hperm.mem_iff.1 (List.mem_cons_of_mem _ hi)⟩
    rcases List.mem_cons.1 (hperm.mem_iff.2 hi) with h1 | h1
    · exact Or.inr ⟨h1, hz⟩
    · exact Or.inl h1

/-- Witness for C15: tick 4 of the FIFO run on A(4,0), B(2,1); A completes and
leaves, B moves from the ready queue to the running slot. -/
theorem C15_exclusive_residence_witness :
    (ids fifo_state3).Nodup ∧ (ids fifo_state4).Nodup ∧
    ((ids fifo_state4).Perm (ids fifo_state3) ∨
      ((at_completion Policy.FIFO fifo_state3).proc.ptimeleft = 0 ∧
       ((at_completion Policy.FIFO fifo_state3).proc.pid :: ids fifo_state4).Perm
         (ids fifo_state3))) :=
  ⟨by decide,
   (C15_exclusive_residence Policy.FIFO fifo_state3 fifo_state4 fifo_line4 rfl (by decide)).1,
   (C15_exclusive_residence Policy.FIFO fifo_state3 fifo_state4 fifo_line4 rfl (by decide)).2.1⟩

/-! ### `sched_FIFO` with 32-bit counters -/

theorem state_after32_add (m n : Nat) (s : Sched) :
    state_after32 (m + n) s = (state_after32 m s).bind (state_after32 n) := by
  induction m generalizing s with
  | zero => simp [state_after32]
  | succ k ih =>
    rw [Nat.succ_add]
    simp only [state_after32]
    split
    · rfl
    · exact ih _

theorem run_state32_extend (p_fq : dlq) (p_time m n : Nat) (s s1 : Sched)
    (h1 : run_state32 p_fq p_time m = some s) (h2 : state_after32 n s = some s1) :
    run_state32 p_fq p_time (m + n) = some s1 := by
  unfold run_state32 at h1 ⊢
  cases hi : sched_init32 p_fq p_time with
  | none => simp [hi] at h1
  | some s0 =>
    simp only [hi, Option.some_bind] at h1 ⊢
    rw [state_after32_add, h1]
    exact h2

theorem run_loop32_of_state_after32 (n : Nat) :
    ∀ (s0 s s1 : Sched) (acc : List TraceLine), state_after32 n s0 = some s →
      FIFO_tick32 s = Outcome.halt s1 → ∃ trace, run_loop32 (n + 1) s0 acc = some (s1, trace) := by
  induction n with
  | zero =>
    intro s0 s s1 acc h ht
    simp only [state_after32, Option.some.injEq] at h
    subst h
    exact ⟨acc, by simp [run_loop32, ht]⟩
  | succ k ih =>
    intro s0 s s1 acc h ht
    unfold state_after32 at h
    split at h
    · cases h
    · rename_i s2 line hs2
      obtain ⟨trace, htr⟩ := ih s2 s s1 (acc ++ [line]) h ht
      exact ⟨trace, by rw [run_loop32, hs2]; exact htr⟩

theorem run_state32_halts (p_fq : dlq) (p_time n : Nat) (s s1 : Sched)
    (h : run_state32 p_fq p_time n = some s) (ht : FIFO_tick32 s = Outcome.halt s1) :
    ∃ trace, sched_FIFO32 (n + 1) p_fq p_time = some (metrics_of32 s1, trace) := by
  unfold run_state32 at h
  cases hi : sched_init32 p_fq p_time with
  | none => simp [hi] at h
  | some s0 =>
    simp only [hi, Option.some_bind] at h
    obtain ⟨trace, htr⟩ := run_loop32_of_state_after32 n s0 s s1 [] h ht
    exact ⟨trace, by simp [sched_FIFO32, hi, htr]⟩

/-- One 32-bit FIFO iteration on an empty feed with a running job that has
arrived, has had its first-run bookkeeping and has at least two units left,
the counter word below its maximum. -/
theorem FIFO_tick32_running (s : Sched) (hfq : s.p_fq = [])
    (hfirst : s.proc.isfirstinstancetime = 0) (hmax : s.p_time < 4294967295)
    (harr : s.proc.ptimearrival ≤ s.p_time) (hleft : 2 ≤ s.proc.ptimeleft) :
    FIFO_tick32 s = Outcome.cont
      { s with p_time := s.p_time + 1,
               proc := { s.proc with ptimeleft := s.proc.ptimeleft - 1 } }
      { tick := s.p_time + 1,
        running := some { s.proc with ptimeleft := s.proc.ptimeleft - 1 }, ready := s.q } := by
  have h0 : s.p_time ≠ 4294967295 := by omega
  have h1 : s.proc.ptimearrival < s.p_time + 1 := Nat.lt_succ_of_le harr
  have h2 : s.proc.ptimeleft ≠ 0 := by omega
  have h3 : s.proc.ptimeleft - 1 ≠ 0 := by omega
  simp [FIFO_tick32, advance32, UINT_MAX, loop_break, FIFO_admission32, first_run32, execute,
    complete32, dec_timeleft, wrap_dec, hfq, hfirst, h0, h1, h2, h3, is_empty]

/-- The 32-bit FIFO loop counts a running job down one unit per tick while the
feed is empty and the counter word does not wrap. -/
theorem FIFO_countdown32 (k : Nat) :
    ∀ s : Sched, s.p_fq = [] → s.proc.isfirstinstancetime = 0 →
      s.p_time + k ≤ 4294967295 → s.proc.ptimearrival ≤ s.p_time → k < s.proc.ptimeleft →
      state_after32 k s = some
        { s with p_time := s.p_time + k,
                 proc := { s.proc with ptimeleft := s.proc.ptimeleft - k } } := by
  induction k with
  | zero => intro s _ _ _ _ _; rfl
  | succ k ih =>
    intro s hfq hfirst hmax harr hleft
    have hstep := FIFO_tick32_running s hfq hfirst (by omega) harr (by omega)
    have hrec := ih { s with p_time := s.p_time + 1,
                             proc := { s.proc with ptimeleft := s.proc.ptimeleft - 1 } }
      hfq hfirst (by show s.p_time + 1 + k ≤ 4294967295; omega) (Nat.le_succ_of_le harr)
      (by show k < s.proc.ptimeleft - 1; omega)
    rw [state_after32, hstep]
    simp only []
    rw [hrec]
    simp only [Option.some.injEq, Sched.mk.injEq, pcb.mk.injEq, true_and, and_true]
    constructor <;> omega

theorem run_state32_wrapped : run_state32 [shortA, shortB] 0 2 = some wrapped32 :=
  rfl

theorem state_after32_counted_down :
    state_after32 4294967293 wrapped32 = some counted_down32 :=
  FIFO_countdown32 4294967293 wrapped32 rfl rfl (by decide) (by decide) (by decide)

theorem state_after32_recounted : state_after32 3 counted_down32 = some recounted32 := by
  decide

theorem state_after32_finished : state_after32 1 recounted32 = some finished32 := by
  decide

theorem tick32_finished : FIFO_tick32 finished32 = Outcome.halt (advance32 finished32) := by
  decide

/-- C6 (code evaluated at the failing input): FIFO on A(1,0), B(1,1) from
counter 0, every `int` held in 32 bits as in the compiled program.  The
turnaround of A, 1, is added at tick 1; A stays in the running slot, wraps to
4294967295 at tick 2 and is counted down while the counter itself wraps; at
iteration `2 ^ 32 + 2` (counter 2) A reaches 0 again and is added a second time
(total 3), and only then B runs (total 5).  The run ends after `2 ^ 32 + 4`
iterations and hands `print_matrics` the counter 4, response total 3 and
turnaround total 5 = 1 + 2 + 2, not one contribution per job. -/
theorem C6_turnaround_counts_job_twice :
    (run_state32 [shortA, shortB] 0 1).map
        (fun s => (s.proc.pname, s.proc.ptimeleft, s.turnaround_time)) = some ("A", 0, 1)
    ∧ run_state32 [shortA, shortB] 0 2 = some wrapped32
    ∧ run_state32 [shortA, shortB] 0 (2 + 4294967293 + 3) = some recounted32
    ∧ run_state32 [shortA, shortB] 0 (2 + 4294967293 + 3 + 1) = some finished32
    ∧ ∃ trace, sched_FIFO32 (2 + 4294967293 + 3 + 1 + 1) [shortA, shortB] 0
        = some ({ num_processes := 2, first_arrival := 0, system_time := 4,
                  response_time := 3, turnaround_time := 5 }, trace) := by
  have h1 : run_state32 [shortA, shortB] 0 (2 + 4294967293) = some counted_down32 :=
    run_state32_extend _ _ 2 4294967293 _ _ run_state32_wrapped state_after32_counted_down
  have h2 : run_state32 [shortA, shortB] 0 (2 + 4294967293 + 3) = some recounted32 :=
    run_state32_extend _ _ (2 + 4294967293) 3 _ _ h1 state_after32_recounted
  have h3 : run_state32 [shortA, shortB] 0 (2 + 4294967293 + 3 + 1) = some finished32 :=
    run_state32_extend _ _ (2 + 4294967293 + 3) 1 _ _ h2 state_after32_finished
  exact ⟨rfl, run_state32_wrapped, h2, h3,
    run_state32_halts [shortA, shortB] 0 (2 + 4294967293 + 3 + 1) _ _ h3 tick32_finished⟩

/-! ### The `float` arguments of `print_matrics` -/

theorem float_of_nat_small (n : Nat) (h : n ≤ 16777216) : float_of_nat n = n := by
  rcases Nat.lt_or_eq_of_le h with h | h
  · have hu : float_ulp 40 n = 1 := by simp [float_ulp, h]
    simp [float_of_nat, hu, Nat.mod_one]
  · subst h; decide

theorem float_of_int_small (z : Int) (h0 : 0 ≤ z) (h : z ≤ 16777216) : float_of_int z = z := by
  unfold float_of_int
  rw [if_neg (by omega), float_of_nat_small _ (by omega)]
  omega

/-- One FIFO iteration on an empty feed while the running job, not finished,
has not arrived. -/
theorem FIFO_tick_waiting (s : Sched) (hfq : s.p_fq = [])
    (hfirst : s.proc.isfirstinstancetime = 0) (hidle : s.p_time + 1 ≤ s.proc.ptimearrival)
    (hleft : s.proc.ptimeleft ≠ 0) :
    FIFO_tick s = Outcome.cont { s with p_time := s.p_time + 1 }
      { tick := s.p_time + 1, running := none, ready := s.q } := by
  have h1 : ¬ s.proc.ptimearrival < s.p_time + 1 := by omega
  simp [FIFO_tick, advance, loop_break, FIFO_admission, first_run, execute, complete, hfq,
    hfirst, h1, hleft, is_empty]

/-- FIFO only advances the counter while the single unfinished job waits for its arrival. -/
theorem FIFO_waiting_run (k : Nat) :
    ∀ s : Sched, s.p_fq = [] → s.proc.isfirstinstancetime = 0 →
      s.p_time + k ≤ s.proc.ptimearrival → s.proc.ptimeleft ≠ 0 →
      state_after Policy.FIFO k s = some { s with p_time := s.p_time + k } := by
  induction k with
  | zero => intro s _ _ _ _; rfl
  | succ k ih =>
    intro s hfq hfirst hidle hleft
    have hstep : tick Policy.FIFO s = _ := FIFO_tick_waiting s hfq hfirst (by omega) hleft
    have hrec := ih { s with p_time := s.p_time + 1 } hfq hfirst
      (by show s.p_time + 1 + k ≤ s.proc.ptimearrival; omega) hleft
    rw [state_after, hstep]
    simp only []
    rw [hrec]
    simp only [Option.some.injEq, Sched.mk.injEq, true_and, and_true]
    omega

theorem run_state_big1 : run_state Policy.FIFO [bigJob] 0 1 = some big_state1 := rfl

theorem state_after_big_arrived :
    state_after Policy.FIFO 67108863 big_state1 = some big_state_arrived :=
  FIFO_waiting_run 67108863 big_state1 rfl rfl (by decide) (by decide)

theorem state_after_big_done : state_after Policy.FIFO 1 big_state_arrived = some big_state_done := by
  decide

theorem tick_big_done :
    tick Policy.FIFO big_state_done = Outcome.halt (advance big_state_done) := by
  decide

theorem tick_first_arrival (pol : Policy) (s s1 : Sched) (line : TraceLine)
    (ht : tick pol s = Outcome.cont s1 line) : s1.first_arrival = s.first_arrival := by
  cases pol with
  | FIFO => obtain ⟨_, rfl, _⟩ := FIFO_tick_cont s s1 line ht; simp
  | SJF => obtain ⟨_, rfl, _⟩ := SJF_tick_cont s s1 line ht; simp
  | STCF => obtain ⟨_, rfl, _⟩ := STCF_tick_cont s s1 line ht; simp
  | RR => obtain ⟨_, rfl, _⟩ := RR_tick_cont s s1 line ht; simp

theorem first_arrival_nonneg (pol : Policy) (p_fq : dlq) (p_time n : Nat) (s : Sched)
    (hs : run_state pol p_fq p_time n = some s) : 0 ≤ s.first_arrival := by
  obtain ⟨s0, hi, hn⟩ := run_state_some _ _ _ _ _ hs
  obtain ⟨proc, rest, _, h0⟩ := sched_init_some _ _ _ hi
  have hinv0 : 0 ≤ s0.first_arrival := by
    subst h0
    exact Int.ofNat_nonneg _
  exact state_after_invariant pol (fun x => 0 ≤ x.first_arrival)
    (fun a b l ha hab => by
      show 0 ≤ b.first_arrival
      rw [tick_first_arrival pol a b l hab]
      exact ha) n s0 s hinv0 hn

/-- Counterexample to C20 as stated: FIFO on the single job X(1, 67108864), whose
remaining time is 1.  The run ends with counter 67108866 and first arrival
67108864; as `float` arguments of `print_matrics` both are 67108864, so the
denominator of the throughput is 0. -/
theorem C20_counterexample :
    (∀ j ∈ [bigJob], 1 ≤ j.ptimeleft) ∧
    (∃ trace, sched_FIFO (1 + 67108863 + 1 + 1) [bigJob] 0 = some (big_metrics, trace)) ∧
    big_metrics.first_arrival < big_metrics.system_time ∧
    float_of_int big_metrics.system_time = 67108864 ∧
    float_of_int big_metrics.first_arrival = 67108864 ∧
    ¬ float_denominator big_metrics ≠ 0 := by
  have h1 : run_state Policy.FIFO [bigJob] 0 (1 + 67108863) = some big_state_arrived :=
    run_state_extend _ _ _ 1 67108863 _ _ run_state_big1 state_after_big_arrived
  have h2 : run_state Policy.FIFO [bigJob] 0 (1 + 67108863 + 1) = some big_state_done :=
    run_state_extend _ _ _ (1 + 67108863) 1 _ _ h1 state_after_big_done
  refine ⟨by decide, ?_, by decide, by decide, by decide, by decide⟩
  exact run_state_halts Policy.FIFO [bigJob] 0 (1 + 67108863 + 1) _ _ h2 tick_big_done

/-- C20 (amended): for each policy and every job list whose jobs all have
initial remaining time `≥ 1` (arrival-sorted or not), in every reachable state
where the termination check fires the counter is strictly above
`first_arrival`, and for every finished run whose final counter is at most
`2 ^ 24 = 16777216`, where the conversion to `float` is exact, the `float`
denominator of the throughput is not 0; whereas for the single job with
remaining time 0 and arrival 1 the run from counter 0 ends with the counter
equal to `first_arrival` and the denominator 0. -/
theorem C20_counter_after_first_arrival (pol : Policy) (p_fq : dlq) (p_time : Nat)
    (hleft : ∀ j ∈ p_fq, 1 ≤ j.ptimeleft) :
    (∀ n s s1, run_state pol p_fq p_time n = some s → tick pol s = Outcome.halt s1 →
      s1.first_arrival < (s1.p_time : Int)) ∧
    (∀ fuel m trace, sched pol fuel p_fq p_time = some (m, trace) →
      m.first_arrival < m.system_time ∧
      (m.system_time ≤ 16777216 → float_denominator m ≠ 0)) ∧
    (sched pol 1 [zeroJob] 0).map
        (fun r => (r.1.system_time, r.1.first_arrival, float_denominator r.1, r.2))
      = some (1, 1, 0, []) := by
  refine ⟨fun n s s1 hs ht => halt_after_first_arrival pol p_fq p_time n s s1 hleft hs ht,
    ?_, by cases pol <;> decide⟩
  intro fuel m trace hrun
  obtain ⟨n, s, s1, hs, ht, rfl⟩ := sched_some pol fuel p_fq p_time m trace hrun
  have hlt := halt_after_first_arrival pol p_fq p_time n s s1 hleft hs ht
  have hnn := first_arrival_nonneg pol p_fq p_time n s hs
  obtain ⟨rfl, _⟩ := tick_halt pol s s1 ht
  refine ⟨hlt, fun hsmall => ?_⟩
  have hsmall2 : ((advance s).p_time : Int) ≤ 16777216 := hsmall
  have hlt2 : s.first_arrival < ((advance s).p_time : Int) := hlt
  show float_of_int (float_of_int ((advance s).p_time : Int) - float_of_int s.first_arrival) ≠ 0
  rw [float_of_int_small ((advance s).p_time : Int) (by omega) hsmall2,
    float_of_int_small s.first_arrival hnn (by omega),
    float_of_int_small _ (by omega) (by omega)]
  omega

/-- Witness for C20 (amended): the finished FIFO run on A(4,0), B(2,1). -/
theorem C20_counter_after_first_arrival_witness :
    sched_FIFO 7 [jobA, jobB] 0 = some (fifo_example_metrics, fifo_example_trace) ∧
    fifo_example_metrics.first_arrival < fifo_example_metrics.system_time ∧
    float_denominator fifo_example_metrics ≠ 0 :=
  ⟨rfl,
   ((C20_counter_after_first_arrival Policy.FIFO [jobA, jobB] 0 (by decide)).2.1 7
      fifo_example_metrics fifo_example_trace rfl).1,
   ((C20_counter_after_first_arrival Policy.FIFO [jobA, jobB] 0 (by decide)).2.1 7
      fifo_example_metrics fifo_example_trace rfl).2 (by decide)⟩

end Scheduler
